import Mathlib

/-!
# Verification development for the `bc` ledger (block sealing, codec, ledger, iterator)

The Go packages `internal/block`, `internal/blockchain` and `internal/iterator`
are embedded as pure Lean functions.

* Byte strings (`[]byte`) are `List UInt8`; Go's `nil` slice and the empty
  slice are both the empty list.
* `int64` values are `Int`; the places where the machine width matters
  (`toHex`, `uint(256 - difficulty)`, the JSON integer reader) reduce
  modulo `2 ^ 64` or check the range explicitly.
* `sha256.Sum256` is a library primitive: it is a parameter of the embedding,
  a function from byte strings to 32-byte digests.
* `time.Now().UnixNano()` is an input of `NewBlock`.
* A panic is the result `none`.
-/

namespace BC

/-- A Go byte slice. -/
abbrev Bytes := List UInt8

deriving instance DecidableEq for Except

/-- The constant `math.MaxInt64`. -/
def maxInt64 : Nat := 9223372036854775807

/-- The constant `math.MinInt64`. -/
def minInt64 : Int := -9223372036854775808

/-- Values representable as a Go `int64`. -/
def isInt64 (n : Int) : Prop := minInt64 ≤ n ∧ n ≤ (maxInt64 : Int)

instance (n : Int) : Decidable (isInt64 n) := by
  unfold isInt64; exact inferInstance

/-- The library primitive `sha256.Sum256`: any function whose result is a
`[32]byte` array. -/
structure Sha256 where
  /-- Digest of a message. -/
  sum256 : Bytes → Bytes
  /-- The digest is a `[32]byte`. -/
  size : ∀ m, (sum256 m).length = 32

/-- The method `big.Int.SetBytes`: the bytes read as a big-endian unsigned integer. -/
def setBytes (bs : Bytes) : Nat :=
  bs.foldl (fun acc b => acc * 256 + b.toNat) 0

/-- The big-endian bytes of the low `8 * k` bits of `v`, most significant first. -/
def bigEndian : Nat → Nat → Bytes
  | 0, _ => []
  | k + 1, v => bigEndian k (v / 256) ++ [UInt8.ofNat (v % 256)]

/-- The method `toHex`: `binary.Write(buff, binary.BigEndian, num)` on an `int64`
writes its eight two's-complement bytes, most significant first. Writing a
fixed-size integer into a `bytes.Buffer` cannot fail, so the error branch is
never taken. -/
def toHex (num : Int) : Bytes :=
  bigEndian 8 (num % 18446744073709551616).toNat

/-- The record type `Block`. -/
structure Block where
  hash : Bytes
  merkleRoot : Bytes
  prevHash : Bytes
  nonce : Int
  difficulty : Int
  timestamp : Int
deriving DecidableEq, Repr

/-- The method `getBytes`: `bytes.Join` of the five parts with an empty separator. -/
def getBytes (block : Block) (nonce : Int) : Bytes :=
  block.prevHash ++ block.merkleRoot ++ toHex nonce ++ toHex block.difficulty
    ++ toHex block.timestamp

/-- The shift amount `uint(256 - block.difficulty)`: the `int64` difference
converted to an unsigned 64-bit integer. -/
def shiftAmount (difficulty : Int) : Nat :=
  ((256 - difficulty) % 18446744073709551616).toNat

/-- Whether `target.Lsh(target, n)` with `target = 1` can build its result. The
shifted number has `n / 64 + 2` words and the library asks the runtime for a
slice with room for four more; the runtime panics (`makeslice: len out of
range`) when that is more than `2 ^ 48` bytes, its allocation limit on the
64-bit platforms. Every difficulty above `256` gives a shift of more than
`2 ^ 63` bits and is refused. Running out of memory below that limit is not
modelled. -/
def lshFits (n : Nat) : Bool :=
  decide ((n / 64 + 6) * 8 ≤ 2 ^ 48)

/-- The threshold `target.Lsh(target, uint(256 - block.difficulty))` with
`target = 1`; `none` is the panic of the shift. -/
def target (difficulty : Int) : Option Nat :=
  if lshFits (shiftAmount difficulty) then some (2 ^ shiftAmount difficulty) else none

/-- The method `Validate`; `none` is the panic of the shift. The stored `hash`
is not read. -/
def Validate (sha : Sha256) (block : Block) : Option Bool :=
  match target block.difficulty with
  | none => none
  | some tgt => some (decide (setBytes (sha.sum256 (getBytes block block.nonce)) < tgt))

/-- The initial value of `var hash [32]byte`. -/
def zeroHash : Bytes := List.replicate 32 0

/-- The loop of `runProofOfWork`, from the state `(nonce, hash)`. Each turn tests
`nonce < math.MaxInt64`, hashes the record for `nonce`, leaves the loop when
the digest is below the target and increments `nonce` otherwise. The first
argument bounds the number of turns. -/
def powLoop (sha : Sha256) (block : Block) (tgt : Nat) : Nat → Nat → Bytes → Nat × Bytes
  | 0, nonce, hash => (nonce, hash)
  | fuel + 1, nonce, hash =>
    if nonce < maxInt64 then
      let hash1 := sha.sum256 (getBytes block (nonce : Int))
      if setBytes hash1 < tgt then (nonce, hash1)
      else powLoop sha block tgt fuel (nonce + 1) hash1
    else (nonce, hash)

/-- The method `runProofOfWork`; `none` is the panic of the shift. The loop starts
at nonce `0`; it makes at most `math.MaxInt64` turns, so that many turns are
allowed. The nonce and the hash of the final state are saved on the block,
whichever way the loop ended. -/
def runProofOfWork (sha : Sha256) (block : Block) : Option Block :=
  match target block.difficulty with
  | none => none
  | some tgt =>
    let r := powLoop sha block tgt maxInt64 0 zeroHash
    some { block with hash := r.2, nonce := (r.1 : Int) }

/-- The constructor `NewBlock`; `now` is the reading of `time.Now().UnixNano()`
and `none` is the panic of the shift. -/
def NewBlock (sha : Sha256) (now : Int) (root prevHash : Bytes) (difficulty : Int) :
    Option Block :=
  runProofOfWork sha
    { hash := [], merkleRoot := root, prevHash := prevHash, nonce := 0,
      difficulty := difficulty, timestamp := now }

/-- The constructor `GenesisBlock`. -/
def GenesisBlock (sha : Sha256) (now : Int) (root : Bytes) (difficulty : Int) : Option Block :=
  NewBlock sha now root [] difficulty

/-- The number `2 ^ uint(256 - difficulty)`: the value of `target` whenever the
shift is carried out. -/
def threshold (difficulty : Int) : Nat :=
  2 ^ shiftAmount difficulty

/-- The block that `runProofOfWork` leaves whenever the shift is carried out. -/
def sealedOf (sha : Sha256) (block : Block) : Block :=
  let r := powLoop sha block (threshold block.difficulty) maxInt64 0 zeroHash
  { block with hash := r.2, nonce := (r.1 : Int) }

/-- The block that `NewBlock` returns whenever the shift is carried out. -/
def sealedNew (sha : Sha256) (now : Int) (root prevHash : Bytes) (difficulty : Int) : Block :=
  sealedOf sha
    { hash := [], merkleRoot := root, prevHash := prevHash, nonce := 0,
      difficulty := difficulty, timestamp := now }

/-- The block that `GenesisBlock` returns whenever the shift is carried out. -/
def sealedGenesis (sha : Sha256) (now : Int) (root : Bytes) (difficulty : Int) : Block :=
  sealedNew sha now root [] difficulty

/-! ## The record codec

`jsoniter.ConfigFastest` is a library: its encoder and decoder are modelled for
the values this program hands them, objects whose members are byte strings
(written as standard base64 text) and `int64` numbers (written in decimal).
The decoder reads members in any order with optional white space, accepts
`null`, skips members whose name is not a field and reads no escape sequences,
arrays, nested objects or fractions (the encoder writes none). -/

/-- The ASCII bytes of a string literal. -/
def ascii (s : String) : Bytes := s.toList.map (fun c => UInt8.ofNat c.toNat)

/-- The standard base64 alphabet: the character of a 6-bit value. -/
def b64Char (v : Nat) : UInt8 :=
  if v < 26 then UInt8.ofNat (65 + v)
  else if v < 52 then UInt8.ofNat (97 + (v - 26))
  else if v < 62 then UInt8.ofNat (48 + (v - 52))
  else if v = 62 then 43 else 47

/-- The 6-bit value of a base64 character, if it is one. -/
def b64Val (c : UInt8) : Option Nat :=
  if 65 ≤ c.toNat ∧ c.toNat ≤ 90 then some (c.toNat - 65)
  else if 97 ≤ c.toNat ∧ c.toNat ≤ 122 then some (c.toNat - 97 + 26)
  else if 48 ≤ c.toNat ∧ c.toNat ≤ 57 then some (c.toNat - 48 + 52)
  else if c.toNat = 43 then some 62
  else if c.toNat = 47 then some 63
  else none

/-- The function `base64.StdEncoding.Encode`: three bytes become four
characters, the last group is padded with `=`. -/
def b64Encode : Bytes → Bytes
  | [] => []
  | [a] => [b64Char (a.toNat / 4), b64Char (a.toNat % 4 * 16), 61, 61]
  | [a, b] =>
    [b64Char (a.toNat / 4), b64Char (a.toNat % 4 * 16 + b.toNat / 16),
      b64Char (b.toNat % 16 * 4), 61]
  | a :: b :: c :: rest =>
    b64Char (a.toNat / 4) :: b64Char (a.toNat % 4 * 16 + b.toNat / 16)
      :: b64Char (b.toNat % 16 * 4 + c.toNat / 64) :: b64Char (c.toNat % 64)
      :: b64Encode rest

/-- The last group of a base64 text: four characters, of which the last one or
two may be padding. -/
def b64DecodeLast (p q r s : UInt8) : Option Bytes :=
  match b64Val p, b64Val q with
  | some v1, some v2 =>
    if r = 61 ∧ s = 61 then some [UInt8.ofNat (v1 * 4 + v2 / 16)]
    else
      match b64Val r with
      | none => none
      | some v3 =>
        if s = 61 then
          some [UInt8.ofNat (v1 * 4 + v2 / 16), UInt8.ofNat (v2 % 16 * 16 + v3 / 4)]
        else
          match b64Val s with
          | none => none
          | some v4 =>
            some [UInt8.ofNat (v1 * 4 + v2 / 16), UInt8.ofNat (v2 % 16 * 16 + v3 / 4),
              UInt8.ofNat (v3 % 4 * 64 + v4)]
  | _, _ => none

/-- The function `base64.StdEncoding.DecodeString`: groups of four characters;
padding only in the last group; any other character is an error. -/
def b64Decode : Bytes → Option Bytes
  | [] => some []
  | [p, q, r, s] => b64DecodeLast p q r s
  | p :: q :: r :: s :: rest =>
    match b64Val p, b64Val q, b64Val r, b64Val s, b64Decode rest with
    | some v1, some v2, some v3, some v4, some out =>
      some (UInt8.ofNat (v1 * 4 + v2 / 16) :: UInt8.ofNat (v2 % 16 * 16 + v3 / 4)
        :: UInt8.ofNat (v3 % 4 * 64 + v4) :: out)
    | _, _, _, _, _ => none
  | _ => none

/-- Decimal digits of a number, least significant first; the first argument
bounds the number of digits. -/
def digitsLE : Nat → Nat → List Nat
  | 0, _ => []
  | fuel + 1, n => if n < 10 then [n] else n % 10 :: digitsLE fuel (n / 10)

/-- The decimal text of a natural number. -/
def natText (n : Nat) : Bytes :=
  ((digitsLE (n + 1) n).reverse).map (fun d => UInt8.ofNat (48 + d))

/-- The decimal text of an `int64`, as the stream writer `WriteInt64` gives it. -/
def intText (v : Int) : Bytes :=
  if v < 0 then 45 :: natText v.natAbs else natText v.natAbs

/-- A value handed to the encoder. -/
inductive JField where
  | bytes (b : Bytes)
  | int64 (v : Int)
deriving DecidableEq, Repr

/-- The text of one value: a byte string is a quoted base64 text, an `int64`
its decimal text. -/
def JField.text : JField → Bytes
  | .bytes b => 34 :: b64Encode b ++ [34]
  | .int64 v => intText v

/-- The members of an object, `"name":value`, separated by commas. -/
def membersText : List (Bytes × JField) → Bytes
  | [] => []
  | [(k, v)] => 34 :: k ++ [34, 58] ++ v.text
  | (k, v) :: m :: ms => 34 :: k ++ [34, 58] ++ v.text ++ 44 :: membersText (m :: ms)

/-- The encoder on a struct: `json.Marshal` writes `{`, the members in the
order of the fields, `}`. -/
def jsonMarshal (fields : List (Bytes × JField)) : Bytes :=
  123 :: membersText fields ++ [125]

/-- A value read by the decoder: a string (the characters between the quotes),
a number, or `null`. -/
inductive JVal where
  | str (raw : Bytes)
  | num (v : Int)
  | null
deriving DecidableEq, Repr

/-- Space, tab, line feed and carriage return. -/
def isWs (c : UInt8) : Bool := c = 32 || c = 9 || c = 10 || c = 13

/-- Skips white space. -/
def skipWs : Bytes → Bytes
  | [] => []
  | c :: rest => if isWs c then skipWs rest else c :: rest

/-- Reads a string after its opening quote, up to the closing quote. -/
def readString : Bytes → Option (Bytes × Bytes)
  | [] => none
  | c :: rest =>
    if c = 34 then some ([], rest)
    else if c = 92 then none
    else
      match readString rest with
      | none => none
      | some (s, r) => some (c :: s, r)

/-- A decimal digit character. -/
def isDigit (c : UInt8) : Bool := decide (48 ≤ c.toNat ∧ c.toNat ≤ 57)

/-- Reads the digits that follow, continuing the value `acc`. -/
def readDigits : Bytes → Nat → Nat × Bytes
  | [], acc => (acc, [])
  | c :: rest, acc =>
    if isDigit c then readDigits rest (acc * 10 + (c.toNat - 48)) else (acc, c :: rest)

/-- Reads an unsigned number: a single `0`, or a digit from `1` to `9` and the
digits that follow. -/
def readUnsigned : Bytes → Option (Nat × Bytes)
  | [] => none
  | c :: rest =>
    if c = 48 then some (0, rest)
    else if isDigit c then some (readDigits rest (c.toNat - 48))
    else none

/-- Reads a number with an optional minus sign; a fraction is an error. -/
def readNumber (inp : Bytes) : Option (Int × Bytes) :=
  let r : Option (Int × Bytes) :=
    match inp with
    | 45 :: rest =>
      match readUnsigned rest with
      | none => none
      | some (n, r) => some (-(n : Int), r)
    | _ =>
      match readUnsigned inp with
      | none => none
      | some (n, r) => some ((n : Int), r)
  match r with
  | some (_, 46 :: _) => none
  | other => other

/-- Reads one value. -/
def readValue : Bytes → Option (JVal × Bytes)
  | 34 :: rest =>
    match readString rest with
    | none => none
    | some (s, r) => some (JVal.str s, r)
  | 110 :: 117 :: 108 :: 108 :: rest => some (JVal.null, rest)
  | inp =>
    match readNumber inp with
    | none => none
    | some (v, r) => some (JVal.num v, r)

/-- Reads the members of an object up to and including the closing brace; the
first argument bounds the number of members. -/
def readMembers : Nat → Bytes → Option (List (Bytes × JVal) × Bytes)
  | 0, _ => none
  | fuel + 1, inp =>
    match skipWs inp with
    | 34 :: r1 =>
      match readString r1 with
      | none => none
      | some (key, r2) =>
        match skipWs r2 with
        | 58 :: r3 =>
          match readValue (skipWs r3) with
          | none => none
          | some (v, r4) =>
            match skipWs r4 with
            | 44 :: r5 =>
              match readMembers fuel r5 with
              | none => none
              | some (ms, r) => some ((key, v) :: ms, r)
            | 125 :: r5 => some ([(key, v)], r5)
            | _ => none
        | _ => none
    | _ => none

/-- Reads an object (or `null`) at the start of the input, white space apart: its
members in the order met, and the input left after the value. Every member
takes at least one byte, so the length of the input bounds their number. -/
def jsonParseFirst (data : Bytes) : Option (List (Bytes × JVal) × Bytes) :=
  match skipWs data with
  | 110 :: 117 :: 108 :: 108 :: rest => some ([], rest)
  | 123 :: r1 =>
    match skipWs r1 with
    | 125 :: r2 => some ([], r2)
    | _ => readMembers data.length r1
  | _ => none

/-- Reads an object (or `null`) that is the whole input, white space apart: the
call `json.Unmarshal` on a struct reports the bytes left after the value. -/
def jsonParse (data : Bytes) : Option (List (Bytes × JVal)) :=
  match jsonParseFirst data with
  | none => none
  | some (ms, rest) => if skipWs rest = [] then some ms else none

/-- The decoder of a `[]byte` field: `null` gives the empty slice, a string is
base64 text. -/
def decodeBytes : JVal → Option Bytes
  | .null => some []
  | .str raw => b64Decode raw
  | .num _ => none

/-- The decoder of an `int64` field: `null` leaves the field as it is, a number
must fit an `int64`. -/
def decodeInt64 (old : Int) : JVal → Option Int
  | .null => some old
  | .num v => if isInt64 v then some v else none
  | .str _ => none

/-- The zero value `Block{}`. -/
def zeroBlock : Block :=
  { hash := [], merkleRoot := [], prevHash := [], nonce := 0, difficulty := 0, timestamp := 0 }

/-- The method `MarshalJSON`: the six fields under their `json` tags. A `nil`
slice, which the encoder writes as `null` and the decoder reads back as a
slice of length zero, is the empty list here and is written as `""`. -/
def MarshalJSON (block : Block) : Except String Bytes :=
  .ok (jsonMarshal
    [(ascii "hash", .bytes block.hash),
     (ascii "merkleRoot", .bytes block.merkleRoot),
     (ascii "prevHash", .bytes block.prevHash),
     (ascii "nonce", .int64 block.nonce),
     (ascii "difficulty", .int64 block.difficulty),
     (ascii "timestamp", .int64 block.timestamp)])

/-- One member read into the struct `blockJSON` of `UnmarshalJSON`: the member is
matched against the `json` tags; a member with another name is skipped. -/
def assignMember (acc : Block) (m : Bytes × JVal) : Option Block :=
  if m.1 = ascii "hash" then (decodeBytes m.2).map (fun x => { acc with hash := x })
  else if m.1 = ascii "merkleRoot" then
    (decodeBytes m.2).map (fun x => { acc with merkleRoot := x })
  else if m.1 = ascii "prevHash" then
    (decodeBytes m.2).map (fun x => { acc with prevHash := x })
  else if m.1 = ascii "nonce" then
    (decodeInt64 acc.nonce m.2).map (fun x => { acc with nonce := x })
  else if m.1 = ascii "difficulty" then
    (decodeInt64 acc.difficulty m.2).map (fun x => { acc with difficulty := x })
  else if m.1 = ascii "timestamp" then
    (decodeInt64 acc.timestamp m.2).map (fun x => { acc with timestamp := x })
  else some acc

/-- The members read one after the other into the struct. -/
def assignMembers : Block → List (Bytes × JVal) → Option Block
  | acc, [] => some acc
  | acc, m :: ms =>
    match assignMember acc m with
    | none => none
    | some acc1 => assignMembers acc1 ms

/-- The method `UnmarshalJSON` on the receiver `block`: on a decoding error the
receiver is left as it was; otherwise all six fields are overwritten from the
struct that was read. -/
def UnmarshalJSON (block : Block) (data : Bytes) : Block × Option String :=
  match jsonParse data with
  | none => (block, some "json: syntax error")
  | some ms =>
    match assignMembers zeroBlock ms with
    | none => (block, some "json: field value")
    | some blockJSON =>
      ({ hash := blockJSON.hash, merkleRoot := blockJSON.merkleRoot,
         prevHash := blockJSON.prevHash, nonce := blockJSON.nonce,
         difficulty := blockJSON.difficulty, timestamp := blockJSON.timestamp }, none)

/-- The function `Serialize`: `json.Marshal` on a `*Block` calls its `MarshalJSON`. -/
def Serialize (b : Block) : Except String Bytes :=
  MarshalJSON b

/-- The function `Deserialize`: `json.Unmarshal` into a fresh `&Block{}` takes the
first value of the input, hands its bytes to `UnmarshalJSON`, and then reports
an error when bytes other than white space are left after that value. The
block is returned together with the error, also when the error is not nil: it
is the zero block when `UnmarshalJSON` failed and the block that was read when
only the bytes left are at fault. -/
def Deserialize (data : Bytes) : Block × Option String :=
  match jsonParseFirst data with
  | none => UnmarshalJSON zeroBlock data
  | some (_, rest) =>
    match UnmarshalJSON zeroBlock (data.take (data.length - rest.length)) with
    | (b, some e) => (b, some e)
    | (b, none) =>
      (b, if skipWs rest = [] then none
          else some "Unmarshal: there are bytes left after unmarshal")

/-! ## The store, the ledger and the iterator

The embedded key-value store is a library: its state is a finite map from keys
to values, a read of an absent key and any access with the empty key are
errors, and the writes of a transaction take effect together when its body
returns no error and not at all otherwise. The store's size limits and
reserved key prefix are not part of `txnSet`; the transaction of `AddBlock` is
embedded a second time, as `addBlockTxnUnder`, with these and the other
failures of the library calls as a parameter. An error made by
`errors.Join(errors.New(text), err)` prints as `text`, a line break and the
text of `err`. -/

/-- The state of the store: the value bound to each key, if any. -/
abbrev DB := Bytes → Option Bytes

/-- The store without any key. -/
def emptyDB : DB := fun _ => none

/-- The call `txn.Get(key)` followed by `item.ValueCopy(nil)`. -/
def txnGet (db : DB) (key : Bytes) : Except String Bytes :=
  if key = [] then .error "Key cannot be empty"
  else
    match db key with
    | none => .error "Key not found"
    | some v => .ok v

/-- The call `txn.Set(key, value)`. -/
def txnSet (db : DB) (key value : Bytes) : Except String DB :=
  if key = [] then .error "Key cannot be empty"
  else .ok (fun k => if k = key then some value else db k)

/-- The constant `difficulty`. -/
def difficulty : Int := 12

/-- The variable `lastHashKey`. -/
def lastHashKey : Bytes := ascii "last_hash"

/-- The variable `genesisData`. -/
def genesisData : Bytes := ascii "First Transaction from Genesis"

/-- The record type `BlockChain`; the field `db` is the state of the store behind
the handle. -/
structure BlockChain where
  lastHash : Bytes
  db : DB

/-- The body of the transaction of `createBlockChain`: the new state of the store
and the value assigned to `lastHash`. A panic of `GenesisBlock` would end the
process with the transaction dropped; at the constant `difficulty` the shift
is one of 244 bits and there is none. -/
def createBlockChainTxn (sha : Sha256) (now : Int) (db : DB) : Except String (DB × Bytes) :=
  match GenesisBlock sha now genesisData difficulty with
  | none => .error "panic: makeslice: len out of range"
  | some genesis =>
    match Serialize genesis with
    | .error e => .error ("createBlockChain: serialize genesis block\n" ++ e)
    | .ok blockBytes =>
      match txnSet db genesis.hash blockBytes with
      | .error e => .error ("createBlockChain: set initial block\n" ++ e)
      | .ok db1 =>
        match txnSet db1 lastHashKey genesis.hash with
        | .error e => .error ("createBlockChain: set initial last hash\n" ++ e)
        | .ok db2 => .ok (db2, genesis.hash)

/-- The method `createBlockChain`: `db.Update` commits the writes when the body
returns no error and drops them otherwise. The result is the state of the store
afterwards, the returned `lastHash` (`nil` when the body failed before the
assignment) and the error. -/
def createBlockChain (sha : Sha256) (now : Int) (db : DB) : DB × Bytes × Option String :=
  match createBlockChainTxn sha now db with
  | .ok (db2, lastHash) => (db2, lastHash, none)
  | .error e => (db, [], some e)

/-- The body of the transaction of `continueBlockChain`. -/
def continueBlockChainTxn (db : DB) : Except String (DB × Bytes) :=
  match txnGet db lastHashKey with
  | .error e => .error ("continueBlockChain: get last hash\n" ++ e)
  | .ok lastHash => .ok (db, lastHash)

/-- The method `continueBlockChain`. -/
def continueBlockChain (db : DB) : DB × Bytes × Option String :=
  match continueBlockChainTxn db with
  | .ok (db1, lastHash) => (db1, lastHash, none)
  | .error e => (db, [], some e)

/-- The body of the transaction of `AddBlock`: the new state of the store. A panic
of `NewBlock` would end the process with the transaction dropped; at the
constant `difficulty` there is none. -/
def addBlockTxn (sha : Sha256) (now : Int) (db : DB) (data : Bytes) : Except String DB :=
  match txnGet db lastHashKey with
  | .error e => .error ("AddBlock: get last hash key\n" ++ e)
  | .ok lastHash =>
    match NewBlock sha now data lastHash difficulty with
    | none => .error "panic: makeslice: len out of range"
    | some newBlock =>
      match Serialize newBlock with
      | .error e => .error ("AddBlock: serialize new block\n" ++ e)
      | .ok blockValue =>
        match txnSet db newBlock.hash blockValue with
        | .error e => .error ("AddBlock: set new block\n" ++ e)
        | .ok db1 =>
          match txnSet db1 lastHashKey newBlock.hash with
          | .error e => .error ("AddBlock: set new block\n" ++ e)
          | .ok db2 => .ok db2

/-- The method `AddBlock`: the transaction is committed when its body returns no
error; an error is logged and the store stays as it was. No other field of the
ledger is assigned. -/
def AddBlock (sha : Sha256) (now : Int) (chain : BlockChain) (data : Bytes) : BlockChain :=
  match addBlockTxn sha now chain.db data with
  | .ok db2 => { chain with db := db2 }
  | .error _ => chain

/-- The record type `Iterator`. The handle `db` names the store; the state of the
store is handed to `Next` at each call. -/
structure Iterator where
  currentHash : Bytes
deriving DecidableEq, Repr

/-- The constructor `NewIterator`. -/
def NewIterator (lastHash : Bytes) : Iterator :=
  { currentHash := lastHash }

/-- The method `BlockChain.Iterator`. -/
def BlockChain.Iterator (chain : BlockChain) : Iterator :=
  NewIterator chain.lastHash

/-- The body of the read-only transaction of `Next`: the value assigned to
`currentBlock` (`none` is the nil pointer) and the error. `Deserialize` assigns
its block to `currentBlock` before its error is looked at. -/
def nextView (db : DB) (i : Iterator) : Option Block × Option String :=
  match txnGet db i.currentHash with
  | .error e => (none, some ("iterator Next: get item from view\n" ++ e))
  | .ok value =>
    match Deserialize value with
    | (blk, some e) => (some blk, some ("iterator Next: deserialize value\n" ++ e))
    | (blk, none) => (some blk, none)

/-- The method `Next`: the returned block (`none` is the nil pointer) and the
iterator afterwards. On an error `currentBlock` is returned as it is and the
cursor is left alone; otherwise the cursor moves to the block's `prevHash`. -/
def Iterator.Next (db : DB) (i : Iterator) : Option Block × Iterator :=
  match nextView db i with
  | (currentBlock, some _) => (currentBlock, i)
  | (some currentBlock, none) => (some currentBlock, { currentHash := currentBlock.prevHash })
  | (none, none) => (none, i)

/-- What the decoder reads back from the text of a value: the base64 text of
a byte string, the number of an `int64`. -/
def JField.toVal : JField → JVal
  | .bytes b => .str (b64Encode b)
  | .int64 v => .num v

/-- The files at the store path: whether the manifest file `dbFile` exists, and
the content of the store. -/
structure Disk where
  manifest : Bool
  db : DB

/-- The call `badger.Open(opts)`: `openErr` is the failure of the open, if any. A
successful open of a read-write store leaves the directory with its manifest
file, which it creates when there is none. -/
def badgerOpen (openErr : Option String) (disk : Disk) : Except String Disk :=
  match openErr with
  | some e => .error e
  | none => .ok { disk with manifest := true }

/-- The constructor `NewBlockChain`: the files afterwards and the result. The
test `os.IsNotExist` on `os.Stat(dbFile)` runs after the store was opened. -/
def NewBlockChain (sha : Sha256) (now : Int) (openErr : Option String) (disk : Disk) :
    Disk × Except String BlockChain :=
  match badgerOpen openErr disk with
  | .error e => (disk, .error ("NewBlockChain: open db\n" ++ e))
  | .ok disk1 =>
    match (if !disk1.manifest then createBlockChain sha now disk1.db
           else continueBlockChain disk1.db) with
    | (db2, _, some e) => ({ disk1 with db := db2 }, .error ("NewBlockChain: \n" ++ e))
    | (db2, lastHash, none) =>
      ({ disk1 with db := db2 }, .ok { lastHash := lastHash, db := db2 })

/-- The ledger that the bootstrap branch of `NewBlockChain` builds over the empty
store: `createBlockChain` runs and its result becomes the cached `lastHash`. -/
def bootstrapLedger (sha : Sha256) (now : Int) : BlockChain :=
  { lastHash := (createBlockChain sha now emptyDB).2.1,
    db := (createBlockChain sha now emptyDB).1 }

/-- A sequence of `AddBlock` calls on one ledger, each with its clock reading and
its payload. -/
def appendAll (sha : Sha256) (chain : BlockChain) (appends : List (Int × Bytes)) : BlockChain :=
  appends.foldl (fun c a => AddBlock sha a.1 c a.2) chain

/-- The blocks sealed by the bootstrap and then by a sequence of appends, newest
first: `GenesisBlock` seals the first one and each append seals its payload
with `NewBlock` over the hash of the block before it. -/
def sealedBlocks (sha : Sha256) (now0 : Int) (appends : List (Int × Bytes)) : List Block :=
  appends.foldl
    (fun acc a =>
      match acc with
      | [] => []
      | b :: rest =>
        match NewBlock sha a.1 a.2 b.hash difficulty with
        | some nb => nb :: b :: rest
        | none => b :: rest)
    (match GenesisBlock sha now0 genesisData difficulty with
     | some genesis => [genesis]
     | none => [])

/-- The list `sealedBlocks`, written with the blocks that the constructors return
at the constant `difficulty`. -/
def sealedChain (sha : Sha256) (now0 : Int) (appends : List (Int × Bytes)) : List Block :=
  appends.foldl
    (fun acc a =>
      match acc with
      | [] => []
      | b :: rest => sealedNew sha a.1 a.2 b.hash difficulty :: b :: rest)
    [sealedGenesis sha now0 genesisData difficulty]

/-- The results of `k` calls of `Next` in a row on one iterator over one state of
the store. -/
def nextResults (db : DB) : Nat → Iterator → List (Option Block)
  | 0, _ => []
  | k + 1, i => (i.Next db).1 :: nextResults db k (i.Next db).2

/-- A digest function with distinct digests: the first byte rejects the nonces
whose low byte is `0`, `1` or `2`, the second byte is zero and the other 30
bytes are the end of the message, last byte first. -/
def demoSha : Sha256 :=
  ⟨fun m => (if (m.reverse.getD 16 0).toNat < 3 then 255 else 0) :: 0
      :: (m.reverse ++ List.replicate 30 0).take 30,
    fun m => by simp⟩

/-- A list of blocks, newest first, is linked: every block's `prevHash` is the
hash of the block after it in the list, and the last block has an empty
`prevHash`. -/
def linked : List Block → Prop
  | [] => True
  | [g] => g.prevHash = []
  | b :: b1 :: rest => b.prevHash = b1.hash ∧ linked (b1 :: rest)

/-- The invariant of the store of a ledger: the tip key is bound to a 32-byte
key of the store; every other key is 32 bytes long and bound to a record that
decodes to a block whose `hash` is that key and whose `prevHash` is empty or a
key of the store. -/
def storeInvariant (db : DB) : Prop :=
  ∃ tip, db lastHashKey = some tip ∧ tip.length = 32 ∧ (db tip).isSome = true ∧
    ∀ k v, k ≠ lastHashKey → db k = some v →
      k.length = 32 ∧ (Deserialize v).2 = none ∧ (Deserialize v).1.hash = k ∧
      ((Deserialize v).1.prevHash = [] ∨ (db (Deserialize v).1.prevHash).isSome = true)

/-- The failures of the library calls in the transaction of `AddBlock` that
`txnGet` and `txnSet` leave out: the error of `item.ValueCopy(nil)` if it
fails, the error of the encoder behind `Serialize` if it fails, and the error
with which `txn.Set(key, value)` refuses a write, given the key and the value
(a key that is too long or carries the reserved prefix, a value that is too
big, a transaction that is too big). -/
structure Faults where
  valueCopy : Option String
  serialize : Option String
  refuses : Bytes → Bytes → Option String

/-- No failure besides those of `txnGet` and `txnSet`. -/
def noFaults : Faults :=
  { valueCopy := none, serialize := none, refuses := fun _ _ => none }

/-- The call `txn.Set(key, value)` under the failures `f`. -/
def txnSetUnder (f : Faults) (db : DB) (key value : Bytes) : Except String DB :=
  match f.refuses key value with
  | some e => .error e
  | none => txnSet db key value

/-- The call `Serialize(b)` under the failures `f`. -/
def serializeUnder (f : Faults) (b : Block) : Except String Bytes :=
  match f.serialize with
  | some e => .error e
  | none => Serialize b

/-- The body of the transaction of `AddBlock` under the failures `f`, step by
step as in the source: `txn.Get`, `item.ValueCopy`, `NewBlock`, `Serialize` and
the two calls of `txn.Set`. Each write goes to the state that the transaction
has built so far. -/
def addBlockTxnUnder (f : Faults) (sha : Sha256) (now : Int) (db : DB) (data : Bytes) :
    Except String DB :=
  match txnGet db lastHashKey with
  | .error e => .error ("AddBlock: get last hash key\n" ++ e)
  | .ok lastHash =>
    match f.valueCopy with
    | some e => .error ("AddBlock: value copy\n" ++ e)
    | none =>
      match NewBlock sha now data lastHash difficulty with
      | none => .error "panic: makeslice: len out of range"
      | some newBlock =>
        match serializeUnder f newBlock with
        | .error e => .error ("AddBlock: serialize new block\n" ++ e)
        | .ok blockValue =>
          match txnSetUnder f db newBlock.hash blockValue with
          | .error e => .error ("AddBlock: set new block\n" ++ e)
          | .ok db1 =>
            match txnSetUnder f db1 lastHashKey newBlock.hash with
            | .error e => .error ("AddBlock: set new block\n" ++ e)
            | .ok db2 => .ok db2

/-- The library call `db.Update(fn)`: the body `fn` runs on the state of the
store and builds a new one; that state is committed when the body returns no
error and dropped otherwise. The result is the state of the store afterwards
and the error of the body. -/
def dbUpdate (db : DB) (fn : DB → Except String DB) : DB × Option String :=
  match fn db with
  | .ok db2 => (db2, none)
  | .error e => (db, some e)

/-- The method `AddBlock` under the failures `f`: the body of the transaction is
handed to `db.Update`; an error is logged. No other field of the ledger is
assigned. -/
def AddBlockUnder (f : Faults) (sha : Sha256) (now : Int) (chain : BlockChain) (data : Bytes) :
    BlockChain :=
  { chain with db := (dbUpdate chain.db (fun db => addBlockTxnUnder f sha now db data)).1 }

/-- A store that refuses every write to the tip key, as a transaction that is
full after its first write does. -/
def tipRefused : Faults :=
  { valueCopy := none, serialize := none,
    refuses := fun key _ =>
      if key = lastHashKey then some "Txn is too big to fit into one request" else none }

/-! ## Big-endian reading -/

theorem setBytes_foldl (bs : Bytes) (a : Nat) :
    bs.foldl (fun acc b => acc * 256 + b.toNat) a = a * 256 ^ bs.length + setBytes bs := by
  induction bs generalizing a with
  | nil => simp [setBytes]
  | cons x xs ih =>
    simp only [List.foldl_cons, setBytes, List.length_cons]
    rw [ih, ih (0 * 256 + x.toNat)]
    ring

theorem setBytes_cons (x : UInt8) (xs : Bytes) :
    setBytes (x :: xs) = x.toNat * 256 ^ xs.length + setBytes xs := by
  have h := setBytes_foldl xs (0 * 256 + x.toNat)
  simp only [setBytes, List.foldl_cons] at h ⊢
  rw [h]; ring

theorem setBytes_append (xs ys : Bytes) :
    setBytes (xs ++ ys) = setBytes xs * 256 ^ ys.length + setBytes ys := by
  unfold setBytes
  rw [List.foldl_append, setBytes_foldl ys]
  rfl

theorem setBytes_lt (bs : Bytes) : setBytes bs < 256 ^ bs.length := by
  induction bs with
  | nil => simp [setBytes]
  | cons x xs ih =>
    rw [setBytes_cons, List.length_cons, pow_succ]
    have hx : x.toNat < 256 := x.val.isLt
    have hp : 0 < 256 ^ xs.length := pow_pos (by norm_num) _
    nlinarith

/-- A digest is below `2 ^ 256`. -/
theorem digest_lt (sha : Sha256) (m : Bytes) : setBytes (sha.sum256 m) < 2 ^ 256 := by
  have h := setBytes_lt (sha.sum256 m)
  rw [sha.size] at h
  exact h

/-! ## The proof-of-work search -/

theorem shiftAmount_of_le (d : Int) (h0 : -9223372036854775808 ≤ d) (h1 : d ≤ 256) :
    shiftAmount d = (256 - d).toNat := by
  unfold shiftAmount
  omega

/-- The search loop, started at `n0` with the turns that remain up to
`math.MaxInt64`: every nonce it passed was rejected, and it ends either on an
accepted nonce below `math.MaxInt64` with that nonce's digest, or at
`math.MaxInt64` with the digest of the last nonce tried. -/
theorem powLoop_spec (sha : Sha256) (b : Block) (tgt : Nat) :
    ∀ (fuel n0 : Nat) (h0 : Bytes), fuel + n0 = maxInt64 →
      (0 < n0 → h0 = sha.sum256 (getBytes b ((n0 - 1 : Nat) : Int))) →
      (∀ m : Nat, n0 ≤ m → m < (powLoop sha b tgt fuel n0 h0).1 →
          ¬ setBytes (sha.sum256 (getBytes b (m : Int))) < tgt) ∧
      n0 ≤ (powLoop sha b tgt fuel n0 h0).1 ∧
      (((powLoop sha b tgt fuel n0 h0).1 < maxInt64 ∧
          (powLoop sha b tgt fuel n0 h0).2
            = sha.sum256 (getBytes b (((powLoop sha b tgt fuel n0 h0).1 : Nat) : Int)) ∧
          setBytes (powLoop sha b tgt fuel n0 h0).2 < tgt) ∨
       ((powLoop sha b tgt fuel n0 h0).1 = maxInt64 ∧
          (powLoop sha b tgt fuel n0 h0).2
            = sha.sum256 (getBytes b ((maxInt64 - 1 : Nat) : Int)))) := by
  intro fuel
  induction fuel with
  | zero =>
    intro n0 h0 hf hh
    have hn : n0 = maxInt64 := by omega
    subst hn
    refine ⟨?_, ?_, Or.inr ⟨rfl, ?_⟩⟩
    · intro m h1 h2
      simp only [powLoop] at h2
      omega
    · simp [powLoop]
    · simp only [powLoop]
      exact hh (by decide)
  | succ fuel ih =>
    intro n0 h0 hf hh
    have hlt : n0 < maxInt64 := by omega
    by_cases hacc : setBytes (sha.sum256 (getBytes b (n0 : Int))) < tgt
    · have hr : powLoop sha b tgt (fuel + 1) n0 h0
          = (n0, sha.sum256 (getBytes b (n0 : Int))) := by
        simp [powLoop, hlt, hacc]
      rw [hr]
      refine ⟨?_, le_refl _, Or.inl ⟨hlt, rfl, hacc⟩⟩
      intro m h1 h2
      simp only at h2
      omega
    · have hr : powLoop sha b tgt (fuel + 1) n0 h0
          = powLoop sha b tgt fuel (n0 + 1) (sha.sum256 (getBytes b (n0 : Int))) := by
        simp [powLoop, hlt, hacc]
      rw [hr]
      have h := ih (n0 + 1) (sha.sum256 (getBytes b (n0 : Int))) (by omega)
        (fun _ => by simp)
      refine ⟨?_, by omega, h.2.2⟩
      intro m h1 h2
      rcases Nat.eq_or_lt_of_le h1 with heq | hgt
      · subst heq; exact hacc
      · exact h.1 m hgt h2

/-! ## Sealed blocks -/

theorem lshFits_of_le (n : Nat) (h : n ≤ 256) : lshFits n = true := by
  unfold lshFits
  apply decide_eq_true
  have h1 : n / 64 ≤ 4 := by omega
  have h2 : (1000 : Nat) ≤ 2 ^ 48 := by norm_num
  omega

theorem shiftAmount_small (d : Int) (h0 : 0 ≤ d) (h1 : d ≤ 256) : shiftAmount d ≤ 256 := by
  unfold shiftAmount
  omega

/-- For a difficulty above `256` the shift is refused. -/
theorem lshFits_of_large (d : Int) (h0 : 256 < d) (h1 : d ≤ 9223372036854775807) :
    lshFits (shiftAmount d) = false := by
  unfold lshFits
  apply decide_eq_false
  have h2 : 9223372036854775808 ≤ shiftAmount d := by
    unfold shiftAmount
    omega
  have h3 : (2 : Nat) ^ 48 = 281474976710656 := by norm_num
  rw [h3]
  omega

theorem target_of_fits (d : Int) (h : lshFits (shiftAmount d) = true) :
    target d = some (threshold d) := by
  simp [target, threshold, h]

theorem target_of_refused (d : Int) (h : lshFits (shiftAmount d) = false) :
    target d = none := by
  simp [target, h]

/-- The answer of `Validate` on a block whose difficulty lets the shift through. -/
theorem Validate_eq (sha : Sha256) (b : Block) (d : Int) (hd : b.difficulty = d)
    (hf : lshFits (shiftAmount d) = true) :
    Validate sha b
      = some (decide (setBytes (sha.sum256 (getBytes b b.nonce)) < threshold d)) := by
  subst hd
  simp [Validate, target_of_fits b.difficulty hf]

theorem NewBlock_of_fits (sha : Sha256) (now : Int) (root prev : Bytes) (d : Int)
    (h : lshFits (shiftAmount d) = true) :
    NewBlock sha now root prev d = some (sealedNew sha now root prev d) := by
  simp [NewBlock, runProofOfWork, sealedNew, sealedOf, target_of_fits d h]

theorem NewBlock_of_refused (sha : Sha256) (now : Int) (root prev : Bytes) (d : Int)
    (h : lshFits (shiftAmount d) = false) :
    NewBlock sha now root prev d = none := by
  simp [NewBlock, runProofOfWork, target_of_refused d h]

theorem lshFits_difficulty : lshFits (shiftAmount difficulty) = true := by decide

/-- At the constant `difficulty` the constructor returns a block. -/
theorem NewBlock_difficulty (sha : Sha256) (now : Int) (root prev : Bytes) :
    NewBlock sha now root prev difficulty = some (sealedNew sha now root prev difficulty) :=
  NewBlock_of_fits sha now root prev difficulty lshFits_difficulty

theorem GenesisBlock_difficulty (sha : Sha256) (now : Int) (root : Bytes) :
    GenesisBlock sha now root difficulty = some (sealedGenesis sha now root difficulty) :=
  NewBlock_difficulty sha now root []

theorem sealedNew_getBytes (sha : Sha256) (now : Int) (root prev : Bytes) (d n : Int) :
    getBytes (sealedNew sha now root prev d) n
      = prev ++ root ++ toHex n ++ toHex d ++ toHex now := rfl

/-- What the search leaves on the block: the stored nonce is a natural number
`n`, every nonce below it was rejected, and either `n` is below `math.MaxInt64`
and accepted and the stored hash is its digest, or `n` is `math.MaxInt64` and
the stored hash is the digest for `math.MaxInt64 - 1`. -/
theorem sealedNew_spec (sha : Sha256) (now : Int) (root prev : Bytes) (d : Int) :
    ∃ n : Nat, (sealedNew sha now root prev d).nonce = (n : Int) ∧
      (∀ m : Nat, m < n →
        ¬ setBytes (sha.sum256 (prev ++ root ++ toHex m ++ toHex d ++ toHex now)) < threshold d) ∧
      ((n < maxInt64 ∧
          (sealedNew sha now root prev d).hash
            = sha.sum256 (prev ++ root ++ toHex n ++ toHex d ++ toHex now) ∧
          setBytes (sha.sum256 (prev ++ root ++ toHex n ++ toHex d ++ toHex now)) < threshold d) ∨
       (n = maxInt64 ∧
          (sealedNew sha now root prev d).hash
            = sha.sum256 (prev ++ root ++ toHex ((maxInt64 - 1 : Nat) : Int) ++ toHex d
                ++ toHex now))) := by
  have h := powLoop_spec sha
    { hash := [], merkleRoot := root, prevHash := prev, nonce := 0,
      difficulty := d, timestamp := now } (threshold d) maxInt64 0 zeroHash (by simp)
    (fun h => absurd h (by decide))
  refine ⟨_, rfl, ?_, ?_⟩
  · intro m hm
    exact h.1 m (Nat.zero_le _) hm
  · rcases h.2.2 with ⟨h1, h2, h3⟩ | ⟨h1, h2⟩
    · refine Or.inl ⟨h1, h2, ?_⟩
      have h4 : setBytes (sealedNew sha now root prev d).hash < threshold d := h3
      rw [show (sealedNew sha now root prev d).hash = _ from h2] at h4
      exact h4
    · exact Or.inr ⟨h1, h2⟩

/-- When some nonce below `math.MaxInt64` is accepted, the search stops on the
first of them and stores its digest. -/
theorem sealedNew_found (sha : Sha256) (now : Int) (root prev : Bytes) (d : Int)
    (hfound : ∃ n : Nat, n < maxInt64 ∧
      setBytes (sha.sum256 (prev ++ root ++ toHex n ++ toHex d ++ toHex now)) < threshold d) :
    ∃ n : Nat, n < maxInt64 ∧ (sealedNew sha now root prev d).nonce = (n : Int) ∧
      (∀ m : Nat, m < n →
        ¬ setBytes (sha.sum256 (prev ++ root ++ toHex m ++ toHex d ++ toHex now)) < threshold d) ∧
      (sealedNew sha now root prev d).hash
        = sha.sum256 (prev ++ root ++ toHex n ++ toHex d ++ toHex now) ∧
      setBytes (sha.sum256 (prev ++ root ++ toHex n ++ toHex d ++ toHex now)) < threshold d := by
  obtain ⟨n, hn, hrej, hcase⟩ := sealedNew_spec sha now root prev d
  rcases hcase with ⟨h1, h2, h3⟩ | ⟨h1, _⟩
  · exact ⟨n, h1, hn, hrej, h2, h3⟩
  · obtain ⟨k, hk, hacc⟩ := hfound
    exact absurd hacc (hrej k (by omega))

/-- When no nonce below `math.MaxInt64` is accepted, the search runs out: the
stored nonce is `math.MaxInt64` and the stored hash is the digest for the nonce
before it. -/
theorem sealedNew_exhausted (sha : Sha256) (now : Int) (root prev : Bytes) (d : Int)
    (hnone : ∀ n : Nat, n < maxInt64 →
      ¬ setBytes (sha.sum256 (prev ++ root ++ toHex n ++ toHex d ++ toHex now)) < threshold d) :
    (sealedNew sha now root prev d).nonce = (maxInt64 : Int) ∧
      (sealedNew sha now root prev d).hash
        = sha.sum256 (prev ++ root ++ toHex ((maxInt64 - 1 : Nat) : Int) ++ toHex d
            ++ toHex now) := by
  obtain ⟨n, hn, _, hcase⟩ := sealedNew_spec sha now root prev d
  rcases hcase with ⟨h1, _, h3⟩ | ⟨h1, h2⟩
  · exact absurd h3 (hnone n h1)
  · subst h1
    exact ⟨hn, h2⟩

theorem sealedNew_hash_length (sha : Sha256) (now : Int) (root prev : Bytes) (d : Int) :
    (sealedNew sha now root prev d).hash.length = 32 := by
  obtain ⟨n, _, _, hcase⟩ := sealedNew_spec sha now root prev d
  rcases hcase with ⟨_, h2, _⟩ | ⟨_, h2⟩ <;> rw [h2] <;> exact sha.size _

theorem threshold_of_small (d : Int) (h0 : 0 ≤ d) (h1 : d ≤ 256) :
    threshold d = 2 ^ (256 - d.toNat) := by
  unfold threshold
  rw [shiftAmount_of_le d (by omega) h1]
  congr 1
  omega

/-- A block returned by `NewBlock` is the block left by the search, and the shift
of its difficulty was carried out. -/
theorem NewBlock_eq_some (sha : Sha256) (now : Int) (root prev : Bytes) (d : Int) (b : Block)
    (hb : NewBlock sha now root prev d = some b) :
    lshFits (shiftAmount d) = true ∧ b = sealedNew sha now root prev d := by
  cases hf : lshFits (shiftAmount d) with
  | false =>
    rw [NewBlock_of_refused sha now root prev d hf] at hb
    exact absurd hb (by simp)
  | true =>
    rw [NewBlock_of_fits sha now root prev d hf] at hb
    exact ⟨rfl, (Option.some.inj hb).symm⟩

theorem toHex_last_ne : toHex ((maxInt64 - 1 : Nat) : Int) ≠ toHex (maxInt64 : Int) := by
  decide

/-- The records of two nonces with different encodings differ. -/
theorem record_ne (prev root x y z w : Bytes) (h : x ≠ y) :
    prev ++ root ++ x ++ z ++ w ≠ prev ++ root ++ y ++ z ++ w := by
  intro he
  have h1 := List.append_cancel_right he
  have h2 := List.append_cancel_right h1
  exact h (List.append_cancel_left h2)

/-! ## Claims on block sealing and validation -/

/-- C2: for every block `b` returned by `NewBlock` there are two cases. Either the
stored nonce is below `math.MaxInt64`, its digest is below the target and the
stored hash is the digest of
`prevHash ++ merkleRoot ++ BE64(nonce) ++ BE64(difficulty) ++ BE64(timestamp)`
taken with the stored nonce. Or no nonce below `math.MaxInt64` is accepted, the
stored nonce is `math.MaxInt64` and the stored hash is the digest taken with
`math.MaxInt64 - 1`, the digest of another record: the loop of
`runProofOfWork` ended without a `break` and the hash and the nonce were saved
all the same. -/
theorem C2_stored_hash_and_nonce (sha : Sha256) (now : Int) (root prev : Bytes) (d : Int)
    (b : Block) (hb : NewBlock sha now root prev d = some b) :
    target b.difficulty = some (threshold b.difficulty) ∧
    ((b.nonce < (maxInt64 : Int) ∧
      setBytes (sha.sum256 (getBytes b b.nonce)) < threshold b.difficulty ∧
      b.hash = sha.sum256 (b.prevHash ++ b.merkleRoot ++ toHex b.nonce ++ toHex b.difficulty
        ++ toHex b.timestamp)) ∨
    (b.nonce = (maxInt64 : Int) ∧
      (∀ n : Nat, n < maxInt64 →
        ¬ setBytes (sha.sum256 (getBytes b (n : Int))) < threshold b.difficulty) ∧
      b.hash = sha.sum256 (b.prevHash ++ b.merkleRoot ++ toHex ((maxInt64 - 1 : Nat) : Int)
        ++ toHex b.difficulty ++ toHex b.timestamp) ∧
      b.prevHash ++ b.merkleRoot ++ toHex ((maxInt64 - 1 : Nat) : Int) ++ toHex b.difficulty
          ++ toHex b.timestamp
        ≠ b.prevHash ++ b.merkleRoot ++ toHex b.nonce ++ toHex b.difficulty
          ++ toHex b.timestamp)) := by
  obtain ⟨hf, rfl⟩ := NewBlock_eq_some sha now root prev d b hb
  refine ⟨target_of_fits d hf, ?_⟩
  obtain ⟨n, hn, hrej, hcase⟩ := sealedNew_spec sha now root prev d
  rcases hcase with ⟨h1, h2, h3⟩ | ⟨h1, h2⟩
  · refine Or.inl ⟨?_, ?_, ?_⟩
    · rw [hn]
      exact_mod_cast h1
    · rw [hn]
      exact h3
    · rw [hn]
      exact h2
  · subst h1
    refine Or.inr ⟨hn, fun m hm => hrej m hm, h2, ?_⟩
    rw [hn]
    exact record_ne _ _ _ _ _ _ toHex_last_ne

/-- C2, an instance: with the digest function `demoSha` at difficulty `12`,
`NewBlock` returns a block; its nonce is `3` and its hash is the digest taken
with the nonce `3`. -/
theorem C2_stored_hash_and_nonce_witness :
    NewBlock demoSha 1700 (ascii "B") [7] 12 = some (sealedNew demoSha 1700 (ascii "B") [7] 12) ∧
    (sealedNew demoSha 1700 (ascii "B") [7] 12).nonce = 3 ∧
    ((sealedNew demoSha 1700 (ascii "B") [7] 12).hash
        = demoSha.sum256 ([7] ++ ascii "B" ++ toHex 3 ++ toHex 12 ++ toHex 1700)) ∧
    target (sealedNew demoSha 1700 (ascii "B") [7] 12).difficulty
      = some (threshold (sealedNew demoSha 1700 (ascii "B") [7] 12).difficulty) ∧
    (((sealedNew demoSha 1700 (ascii "B") [7] 12).nonce < (maxInt64 : Int) ∧
      setBytes (demoSha.sum256 (getBytes (sealedNew demoSha 1700 (ascii "B") [7] 12)
          (sealedNew demoSha 1700 (ascii "B") [7] 12).nonce))
        < threshold (sealedNew demoSha 1700 (ascii "B") [7] 12).difficulty ∧
      (sealedNew demoSha 1700 (ascii "B") [7] 12).hash
        = demoSha.sum256 ((sealedNew demoSha 1700 (ascii "B") [7] 12).prevHash
          ++ (sealedNew demoSha 1700 (ascii "B") [7] 12).merkleRoot
          ++ toHex (sealedNew demoSha 1700 (ascii "B") [7] 12).nonce
          ++ toHex (sealedNew demoSha 1700 (ascii "B") [7] 12).difficulty
          ++ toHex (sealedNew demoSha 1700 (ascii "B") [7] 12).timestamp)) ∨
    ((sealedNew demoSha 1700 (ascii "B") [7] 12).nonce = (maxInt64 : Int) ∧
      (∀ n : Nat, n < maxInt64 →
        ¬ setBytes (demoSha.sum256 (getBytes (sealedNew demoSha 1700 (ascii "B") [7] 12) (n : Int)))
          < threshold (sealedNew demoSha 1700 (ascii "B") [7] 12).difficulty) ∧
      (sealedNew demoSha 1700 (ascii "B") [7] 12).hash
        = demoSha.sum256 ((sealedNew demoSha 1700 (ascii "B") [7] 12).prevHash
          ++ (sealedNew demoSha 1700 (ascii "B") [7] 12).merkleRoot
          ++ toHex ((maxInt64 - 1 : Nat) : Int)
          ++ toHex (sealedNew demoSha 1700 (ascii "B") [7] 12).difficulty
          ++ toHex (sealedNew demoSha 1700 (ascii "B") [7] 12).timestamp) ∧
      (sealedNew demoSha 1700 (ascii "B") [7] 12).prevHash
          ++ (sealedNew demoSha 1700 (ascii "B") [7] 12).merkleRoot
          ++ toHex ((maxInt64 - 1 : Nat) : Int)
          ++ toHex (sealedNew demoSha 1700 (ascii "B") [7] 12).difficulty
          ++ toHex (sealedNew demoSha 1700 (ascii "B") [7] 12).timestamp
        ≠ (sealedNew demoSha 1700 (ascii "B") [7] 12).prevHash
          ++ (sealedNew demoSha 1700 (ascii "B") [7] 12).merkleRoot
          ++ toHex (sealedNew demoSha 1700 (ascii "B") [7] 12).nonce
          ++ toHex (sealedNew demoSha 1700 (ascii "B") [7] 12).difficulty
          ++ toHex (sealedNew demoSha 1700 (ascii "B") [7] 12).timestamp)) :=
  ⟨by decide, by decide, by decide,
    C2_stored_hash_and_nonce demoSha 1700 (ascii "B") [7] 12 _ (by decide)⟩

/-- C3 (amended): for every payload, `prevHash`, timestamp and difficulty `d` with
`0 ≤ d ≤ 256` for which some nonce below `math.MaxInt64` gives a digest below
`2 ^ (256 - d)`, `NewBlock` returns a block and `Validate` on that block
returns true. -/
theorem C3_validate_new_block (sha : Sha256) (now : Int) (root prev : Bytes) (d : Int)
    (hd : 0 ≤ d ∧ d ≤ 256)
    (hfound : ∃ n : Nat, n < maxInt64 ∧
      setBytes (sha.sum256 (prev ++ root ++ toHex n ++ toHex d ++ toHex now))
        < 2 ^ (256 - d.toNat)) :
    ∃ b : Block, NewBlock sha now root prev d = some b ∧ Validate sha b = some true := by
  have hf : lshFits (shiftAmount d) = true :=
    lshFits_of_le _ (shiftAmount_small d hd.1 hd.2)
  rw [← threshold_of_small d hd.1 hd.2] at hfound
  obtain ⟨n, _, hn, _, _, hacc⟩ := sealedNew_found sha now root prev d hfound
  refine ⟨_, NewBlock_of_fits sha now root prev d hf, ?_⟩
  rw [Validate_eq sha (sealedNew sha now root prev d) d rfl hf, hn, sealedNew_getBytes]
  exact congrArg some (decide_eq_true hacc)

/-- C3, an instance: with the digest function `demoSha` at difficulty `12` the
nonce `3` is accepted; `NewBlock` returns a block and `Validate` accepts it. -/
theorem C3_validate_new_block_witness :
    ((0 : Int) ≤ 12 ∧ (12 : Int) ≤ 256) ∧
    (∃ n : Nat, n < maxInt64 ∧
      setBytes (demoSha.sum256 ([7] ++ ascii "C" ++ toHex n ++ toHex 12 ++ toHex 1700))
        < 2 ^ (256 - (12 : Int).toNat)) ∧
    ∃ b : Block, NewBlock demoSha 1700 (ascii "C") [7] 12 = some b ∧
      Validate demoSha b = some true :=
  ⟨by decide, ⟨3, by decide, by decide⟩,
    C3_validate_new_block demoSha 1700 (ascii "C") [7] 12 (by decide)
      ⟨3, by decide, by decide⟩⟩

/-- C3, as stated, fails at the difficulty `257`, whatever the payload, the
`prevHash`, the timestamp and the digest function: the shift amount
`uint(256 - 257)` is `2 ^ 64 - 1`, the shift panics, `NewBlock` returns no block
and `Validate` on a block of that difficulty returns no answer. -/
theorem C3_counterexample :
    shiftAmount 257 = 18446744073709551615 ∧
    (∀ (sha : Sha256) (now : Int) (root prev : Bytes), NewBlock sha now root prev 257 = none) ∧
    (∀ (sha : Sha256) (b : Block), b.difficulty = 257 → Validate sha b = none) := by
  refine ⟨by decide, fun sha now root prev => ?_, fun sha b hb => ?_⟩
  · exact NewBlock_of_refused sha now root prev 257 (by decide)
  · have h : target b.difficulty = none := by
      rw [hb]
      exact target_of_refused 257 (by decide)
    simp [Validate, h]

/-- C4 (amended): for every block `b` returned by `NewBlock`, changing the nonce
to any value `n` with `0 ≤ n < b.nonce` (all other fields, the hash among them,
kept) makes `Validate` return false. -/
theorem C4_validate_after_mutation (sha : Sha256) (now : Int) (root prev : Bytes) (d : Int)
    (b : Block) (hb : NewBlock sha now root prev d = some b)
    (n : Int) (h0 : 0 ≤ n) (hlt : n < b.nonce) :
    Validate sha { b with nonce := n } = some false := by
  obtain ⟨hf, rfl⟩ := NewBlock_eq_some sha now root prev d b hb
  obtain ⟨k, hk, hrej, _⟩ := sealedNew_spec sha now root prev d
  rw [hk] at hlt
  have hn : n = ((n.toNat : Nat) : Int) := by omega
  have h := hrej n.toNat (by omega)
  rw [← hn] at h
  rw [Validate_eq sha { sealedNew sha now root prev d with nonce := n } d rfl hf]
  exact congrArg some (decide_eq_false h)

/-- C4, an instance: with the digest function `demoSha` at difficulty `12` the
sealed nonce is `3`; with the nonce changed to `1` the block is rejected. -/
theorem C4_validate_after_mutation_witness :
    NewBlock demoSha 5 [1] [2] 12 = some (sealedNew demoSha 5 [1] [2] 12) ∧
    (0 : Int) ≤ 1 ∧ (1 : Int) < (sealedNew demoSha 5 [1] [2] 12).nonce ∧
    Validate demoSha { sealedNew demoSha 5 [1] [2] 12 with nonce := 1 } = some false :=
  ⟨by decide, by decide, by decide,
    C4_validate_after_mutation demoSha 5 [1] [2] 12 _ (by decide) 1 (by decide) (by decide)⟩

/-- C4, as stated, fails at the difficulty `0`, whatever the digest function: the
target is `2 ^ 256` and every 32-byte digest is below it. The block sealed with
the timestamp `5` and then given the timestamp `6` still validates, and so does
the block given the other `prevHash` `[9]`. -/
theorem C4_counterexample :
    (∀ sha : Sha256, ∃ b : Block, NewBlock sha 5 [1] [2] 0 = some b ∧
      b.timestamp ≠ 6 ∧ Validate sha { b with timestamp := 6 } = some true) ∧
    (∀ sha : Sha256, ∃ b : Block, NewBlock sha 5 [1] [2] 0 = some b ∧
      b.prevHash ≠ [9] ∧ Validate sha { b with prevHash := [9] } = some true) := by
  have hf : lshFits (shiftAmount 0) = true := by decide
  have ht : threshold 0 = 2 ^ 256 := by decide
  constructor
  · intro sha
    refine ⟨_, NewBlock_of_fits sha 5 [1] [2] 0 hf,
      fun h => absurd (show (5 : Int) = 6 from h) (by decide), ?_⟩
    rw [Validate_eq sha { sealedNew sha 5 [1] [2] 0 with timestamp := 6 } 0 rfl hf, ht]
    exact congrArg some (decide_eq_true (digest_lt sha _))
  · intro sha
    refine ⟨_, NewBlock_of_fits sha 5 [1] [2] 0 hf,
      fun h => absurd (show ([2] : Bytes) = [9] from h) (by decide), ?_⟩
    rw [Validate_eq sha { sealedNew sha 5 [1] [2] 0 with prevHash := [9] } 0 rfl hf, ht]
    exact congrArg some (decide_eq_true (digest_lt sha _))

/-- C6: for every block `b` returned by `NewBlock`, the stored nonce is not
negative and every nonce `n` with `0 ≤ n < b.nonce` gives a digest that is not
below the target `2 ^ uint(256 - b.difficulty)`. The stored nonce itself is
accepted when it is below `math.MaxInt64`; otherwise it is `math.MaxInt64`,
every nonce below it was rejected and it was never tried: the loop of
`runProofOfWork` ended without a `break`. -/
theorem C6_first_accepting_or_untried (sha : Sha256) (now : Int) (root prev : Bytes) (d : Int)
    (b : Block) (hb : NewBlock sha now root prev d = some b) :
    target b.difficulty = some (threshold b.difficulty) ∧
    0 ≤ b.nonce ∧
    (∀ n : Int, 0 ≤ n → n < b.nonce →
      ¬ setBytes (sha.sum256 (getBytes b n)) < threshold b.difficulty) ∧
    ((b.nonce < (maxInt64 : Int) ∧
        setBytes (sha.sum256 (getBytes b b.nonce)) < threshold b.difficulty) ∨
      (b.nonce = (maxInt64 : Int) ∧
        ∀ n : Nat, n < maxInt64 →
          ¬ setBytes (sha.sum256 (getBytes b (n : Int))) < threshold b.difficulty)) := by
  obtain ⟨hf, rfl⟩ := NewBlock_eq_some sha now root prev d b hb
  obtain ⟨k, hk, hrej, hcase⟩ := sealedNew_spec sha now root prev d
  refine ⟨target_of_fits d hf, by rw [hk]; omega, ?_, ?_⟩
  · intro n h0 hlt
    rw [hk] at hlt
    have hn : n = ((n.toNat : Nat) : Int) := by omega
    have h := hrej n.toNat (by omega)
    rw [← hn] at h
    exact h
  · rcases hcase with ⟨h1, _, h3⟩ | ⟨h1, _⟩
    · refine Or.inl ⟨?_, ?_⟩
      · rw [hk]
        exact_mod_cast h1
      · rw [hk]
        exact h3
    · subst h1
      exact Or.inr ⟨hk, fun m hm => hrej m hm⟩

/-- C6, an instance: with the digest function `demoSha` at difficulty `12` the
stored nonce `3` is the first accepted one. -/
theorem C6_first_accepting_or_untried_witness :
    NewBlock demoSha 1700 (ascii "D") [7] 12 = some (sealedNew demoSha 1700 (ascii "D") [7] 12) ∧
    (sealedNew demoSha 1700 (ascii "D") [7] 12).nonce = 3 ∧
    (target (sealedNew demoSha 1700 (ascii "D") [7] 12).difficulty
      = some (threshold (sealedNew demoSha 1700 (ascii "D") [7] 12).difficulty) ∧
    0 ≤ (sealedNew demoSha 1700 (ascii "D") [7] 12).nonce ∧
    (∀ n : Int, 0 ≤ n → n < (sealedNew demoSha 1700 (ascii "D") [7] 12).nonce →
      ¬ setBytes (demoSha.sum256 (getBytes (sealedNew demoSha 1700 (ascii "D") [7] 12) n))
        < threshold (sealedNew demoSha 1700 (ascii "D") [7] 12).difficulty) ∧
    (((sealedNew demoSha 1700 (ascii "D") [7] 12).nonce < (maxInt64 : Int) ∧
        setBytes (demoSha.sum256 (getBytes (sealedNew demoSha 1700 (ascii "D") [7] 12)
            (sealedNew demoSha 1700 (ascii "D") [7] 12).nonce))
          < threshold (sealedNew demoSha 1700 (ascii "D") [7] 12).difficulty) ∨
      ((sealedNew demoSha 1700 (ascii "D") [7] 12).nonce = (maxInt64 : Int) ∧
        ∀ n : Nat, n < maxInt64 →
          ¬ setBytes (demoSha.sum256 (getBytes (sealedNew demoSha 1700 (ascii "D") [7] 12)
              (n : Int)))
            < threshold (sealedNew demoSha 1700 (ascii "D") [7] 12).difficulty))) :=
  ⟨by decide, by decide,
    C6_first_accepting_or_untried demoSha 1700 (ascii "D") [7] 12 _ (by decide)⟩

/-! ## The codec: base64 -/

theorem ofNat_toNat (x : UInt8) : UInt8.ofNat x.toNat = x := by
  cases x with
  | mk v => simp [UInt8.ofNat, UInt8.toNat]

theorem toNat_ofNat_lt (n : Nat) (h : n < 256) : (UInt8.ofNat n).toNat = n := by
  simp [UInt8.ofNat, UInt8.toNat]
  exact h

theorem toNat_lt (x : UInt8) : x.toNat < 256 := by
  cases x with
  | mk v => exact v.isLt

theorem b64Val_b64Char (v : Nat) (h : v < 64) : b64Val (b64Char v) = some v := by
  interval_cases v <;> rfl

theorem b64Char_ne (v : Nat) (h : v < 64) :
    b64Char v ≠ 61 ∧ b64Char v ≠ 34 ∧ b64Char v ≠ 92 := by
  interval_cases v <;> decide

theorem b64Encode_clean (bs : Bytes) : ∀ c ∈ b64Encode bs, c ≠ 34 ∧ c ≠ 92 := by
  induction bs using b64Encode.induct with
  | case1 => simp [b64Encode]
  | case2 a =>
    have ha := toNat_lt a
    intro c hc
    simp only [b64Encode, List.mem_cons, List.mem_singleton, List.not_mem_nil, or_false] at hc
    rcases hc with h | h | h | h <;> subst h
    · exact (b64Char_ne _ (by omega)).2
    · exact (b64Char_ne _ (by omega)).2
    · decide
    · decide
  | case3 a b =>
    have ha := toNat_lt a
    have hb := toNat_lt b
    intro c hc
    simp only [b64Encode, List.mem_cons, List.mem_singleton, List.not_mem_nil, or_false] at hc
    rcases hc with h | h | h | h <;> subst h
    · exact (b64Char_ne _ (by omega)).2
    · exact (b64Char_ne _ (by omega)).2
    · exact (b64Char_ne _ (by omega)).2
    · decide
  | case4 a b c rest ih =>
    have ha := toNat_lt a
    have hb := toNat_lt b
    have hc := toNat_lt c
    intro x hx
    simp only [b64Encode, List.mem_cons] at hx
    rcases hx with h | h | h | h | h
    · subst h; exact (b64Char_ne _ (by omega)).2
    · subst h; exact (b64Char_ne _ (by omega)).2
    · subst h; exact (b64Char_ne _ (by omega)).2
    · subst h; exact (b64Char_ne _ (by omega)).2
    · exact ih x h

theorem b64Encode_ne_nil (x : UInt8) (xs : Bytes) :
    ∃ y ys, b64Encode (x :: xs) = y :: ys := by
  cases xs with
  | nil => exact ⟨_, _, rfl⟩
  | cons b t =>
    cases t with
    | nil => exact ⟨_, _, rfl⟩
    | cons c r => exact ⟨_, _, rfl⟩

theorem b64DecodeLast_one (a : UInt8) :
    b64DecodeLast (b64Char (a.toNat / 4)) (b64Char (a.toNat % 4 * 16)) 61 61 = some [a] := by
  have ha := toNat_lt a
  unfold b64DecodeLast
  rw [b64Val_b64Char _ (by omega), b64Val_b64Char _ (by omega)]
  have h : a.toNat / 4 * 4 + a.toNat % 4 * 16 / 16 = a.toNat := by omega
  simp only [and_self, ↓reduceIte, h, ofNat_toNat]

theorem b64DecodeLast_two (a b : UInt8) :
    b64DecodeLast (b64Char (a.toNat / 4)) (b64Char (a.toNat % 4 * 16 + b.toNat / 16))
      (b64Char (b.toNat % 16 * 4)) 61 = some [a, b] := by
  have ha := toNat_lt a
  have hb := toNat_lt b
  unfold b64DecodeLast
  rw [b64Val_b64Char _ (by omega), b64Val_b64Char _ (by omega)]
  have hne := (b64Char_ne (b.toNat % 16 * 4) (by omega)).1
  have h1 : a.toNat / 4 * 4 + (a.toNat % 4 * 16 + b.toNat / 16) / 16 = a.toNat := by omega
  have h2 : (a.toNat % 4 * 16 + b.toNat / 16) % 16 * 16 + b.toNat % 16 * 4 / 4 = b.toNat := by
    omega
  simp only [hne, false_and, ↓reduceIte,
    b64Val_b64Char _ (show b.toNat % 16 * 4 < 64 by omega), h1, h2, ofNat_toNat]

theorem b64DecodeLast_three (a b c : UInt8) :
    b64DecodeLast (b64Char (a.toNat / 4)) (b64Char (a.toNat % 4 * 16 + b.toNat / 16))
      (b64Char (b.toNat % 16 * 4 + c.toNat / 64)) (b64Char (c.toNat % 64)) = some [a, b, c] := by
  have ha := toNat_lt a
  have hb := toNat_lt b
  have hc := toNat_lt c
  unfold b64DecodeLast
  rw [b64Val_b64Char _ (by omega), b64Val_b64Char _ (by omega)]
  have hne3 := (b64Char_ne (b.toNat % 16 * 4 + c.toNat / 64) (by omega)).1
  have hne4 := (b64Char_ne (c.toNat % 64) (by omega)).1
  have h1 : a.toNat / 4 * 4 + (a.toNat % 4 * 16 + b.toNat / 16) / 16 = a.toNat := by omega
  have h2 : (a.toNat % 4 * 16 + b.toNat / 16) % 16 * 16
      + (b.toNat % 16 * 4 + c.toNat / 64) / 4 = b.toNat := by omega
  have h3 : (b.toNat % 16 * 4 + c.toNat / 64) % 4 * 64 + c.toNat % 64 = c.toNat := by omega
  simp only [hne3, hne4, false_and, ↓reduceIte,
    b64Val_b64Char _ (show b.toNat % 16 * 4 + c.toNat / 64 < 64 by omega),
    b64Val_b64Char _ (show c.toNat % 64 < 64 by omega), h1, h2, h3, ofNat_toNat]

/-- Base64 round trip: decoding the encoded text gives the bytes back. -/
theorem b64Decode_b64Encode (bs : Bytes) : b64Decode (b64Encode bs) = some bs := by
  induction bs using b64Encode.induct with
  | case1 => rfl
  | case2 a =>
    simp only [b64Encode, b64Decode]
    exact b64DecodeLast_one a
  | case3 a b =>
    simp only [b64Encode, b64Decode]
    exact b64DecodeLast_two a b
  | case4 a b c rest ih =>
    have ha := toNat_lt a
    have hb := toNat_lt b
    have hc := toNat_lt c
    cases rest with
    | nil =>
      simp only [b64Encode, b64Decode]
      exact b64DecodeLast_three a b c
    | cons x xs =>
      obtain ⟨y, ys, hy⟩ := b64Encode_ne_nil x xs
      have h1 : a.toNat / 4 * 4 + (a.toNat % 4 * 16 + b.toNat / 16) / 16 = a.toNat := by omega
      have h2 : (a.toNat % 4 * 16 + b.toNat / 16) % 16 * 16
          + (b.toNat % 16 * 4 + c.toNat / 64) / 4 = b.toNat := by omega
      have h3 : (b.toNat % 16 * 4 + c.toNat / 64) % 4 * 64 + c.toNat % 64 = c.toNat := by omega
      rw [hy] at ih
      simp only [b64Encode]
      rw [hy]
      simp only [b64Decode]
      rw [b64Val_b64Char _ (show a.toNat / 4 < 64 by omega),
        b64Val_b64Char _ (show a.toNat % 4 * 16 + b.toNat / 16 < 64 by omega),
        b64Val_b64Char _ (show b.toNat % 16 * 4 + c.toNat / 64 < 64 by omega),
        b64Val_b64Char _ (show c.toNat % 64 < 64 by omega), ih]
      simp only [h1, h2, h3, ofNat_toNat]

/-! ## The codec: decimal numbers -/

theorem digit_toNat (d : Nat) (h : d < 10) : (UInt8.ofNat (48 + d)).toNat = 48 + d :=
  toNat_ofNat_lt _ (by omega)

theorem isDigit_digit (d : Nat) (h : d < 10) : isDigit (UInt8.ofNat (48 + d)) = true := by
  simp only [isDigit, digit_toNat d h, decide_eq_true_eq]
  omega

theorem readDigits_append (xs : List Nat) (hx : ∀ d ∈ xs, d < 10) (tail : Bytes) (acc : Nat) :
    readDigits (xs.map (fun d => UInt8.ofNat (48 + d)) ++ tail) acc
      = readDigits tail (xs.foldl (fun a d => a * 10 + d) acc) := by
  induction xs generalizing acc with
  | nil => rfl
  | cons d ds ih =>
    have hd : d < 10 := hx d (List.mem_cons_self _ _)
    simp only [List.map_cons, List.cons_append, readDigits, isDigit_digit d hd, ↓reduceIte,
      List.foldl_cons, digit_toNat d hd]
    have h48 : 48 + d - 48 = d := by omega
    rw [h48]
    exact ih (fun e he => hx e (List.mem_cons_of_mem _ he)) _

theorem readDigits_stop (c : UInt8) (rest : Bytes) (acc : Nat) (h : isDigit c = false) :
    readDigits (c :: rest) acc = (acc, c :: rest) := by
  simp [readDigits, h]

theorem digitsLE_lt (fuel : Nat) : ∀ n, ∀ d ∈ digitsLE fuel n, d < 10 := by
  induction fuel with
  | zero => intro n d hd; simp [digitsLE] at hd
  | succ f ih =>
    intro n d hd
    unfold digitsLE at hd
    split at hd
    · simp only [List.mem_singleton] at hd
      omega
    · simp only [List.mem_cons] at hd
      rcases hd with h | h
      · omega
      · exact ih _ d h

theorem digitsLE_val (fuel : Nat) :
    ∀ n, n < fuel → (digitsLE fuel n).foldr (fun d a => a * 10 + d) 0 = n := by
  induction fuel with
  | zero => intro n h; omega
  | succ f ih =>
    intro n h
    unfold digitsLE
    split
    · simp
    · simp only [List.foldr_cons]
      rw [ih (n / 10) (by omega)]
      omega

theorem digitsLE_reverse_head (fuel : Nat) :
    ∀ n, n < fuel → 0 < n →
      ∃ d0 more, (digitsLE fuel n).reverse = d0 :: more ∧ 1 ≤ d0 ∧ d0 ≤ 9 := by
  induction fuel with
  | zero => intro n h; omega
  | succ f ih =>
    intro n h hpos
    unfold digitsLE
    split
    · exact ⟨n, [], by simp, by omega, by omega⟩
    · obtain ⟨d0, more, hr, h1, h2⟩ := ih (n / 10) (by omega) (by omega)
      exact ⟨d0, more ++ [n % 10], by simp [hr], h1, h2⟩

theorem readUnsigned_natText (n : Nat) (c : UInt8) (rest : Bytes) (hc : isDigit c = false) :
    readUnsigned (natText n ++ c :: rest) = some (n, c :: rest) := by
  rcases Nat.eq_zero_or_pos n with h0 | hpos
  · subst h0
    rfl
  · obtain ⟨d0, more, hr, h1, h2⟩ := digitsLE_reverse_head (n + 1) n (by omega) hpos
    have hall : ∀ d ∈ d0 :: more, d < 10 := by
      intro d hd
      rw [← hr] at hd
      exact digitsLE_lt _ _ d (List.mem_reverse.mp hd)
    have hval : (d0 :: more).foldl (fun a d => a * 10 + d) 0 = n := by
      rw [← hr, List.foldl_reverse]
      exact digitsLE_val (n + 1) n (by omega)
    have hne : UInt8.ofNat (48 + d0) ≠ 48 := by
      intro h
      have h3 := congrArg UInt8.toNat h
      rw [digit_toNat d0 (by omega)] at h3
      have h4 : (48 : UInt8).toNat = 48 := rfl
      omega
    unfold natText
    rw [hr]
    simp only [List.map_cons, List.cons_append, readUnsigned, hne, ↓reduceIte,
      isDigit_digit d0 (by omega), digit_toNat d0 (by omega)]
    rw [readDigits_append more (fun d hd => hall d (List.mem_cons_of_mem _ hd)),
      readDigits_stop c rest _ hc]
    simp only [List.foldl_cons] at hval
    have h5 : 48 + d0 - 48 = 0 * 10 + d0 := by omega
    rw [h5, hval]

theorem natText_head (n : Nat) :
    ∃ x xs, natText n = x :: xs ∧ isDigit x = true := by
  rcases Nat.eq_zero_or_pos n with h0 | hpos
  · subst h0
    exact ⟨48, [], rfl, by decide⟩
  · obtain ⟨d0, more, hr, h1, h2⟩ := digitsLE_reverse_head (n + 1) n (by omega) hpos
    refine ⟨UInt8.ofNat (48 + d0), more.map (fun d => UInt8.ofNat (48 + d)), ?_,
      isDigit_digit d0 (by omega)⟩
    unfold natText
    rw [hr]
    rfl

theorem readNumber_intText (v : Int) (c : UInt8) (rest : Bytes) (hc : isDigit c = false)
    (hdot : c ≠ 46) : readNumber (intText v ++ c :: rest) = some (v, c :: rest) := by
  by_cases hv : v < 0
  · have h1 : intText v = 45 :: natText v.natAbs := by simp [intText, hv]
    have h2 : (-(v.natAbs : Int)) = v := by omega
    rw [h1]
    simp only [readNumber, List.cons_append, readUnsigned_natText _ c rest hc, h2]
    split
    · next h => simp only [Option.some.injEq, Prod.mk.injEq, List.cons.injEq] at h
                exact absurd h.2.1 hdot
    · rfl
  · have h1 : intText v = natText v.natAbs := by simp [intText, hv]
    have h2 : ((v.natAbs : Nat) : Int) = v := by omega
    obtain ⟨x, xs, hx, hdig⟩ := natText_head v.natAbs
    have hx45 : x ≠ 45 := by
      intro h
      subst h
      exact absurd hdig (by decide)
    have hread := readUnsigned_natText v.natAbs c rest hc
    rw [h1]
    rw [hx] at hread ⊢
    unfold readNumber
    simp only [List.cons_append] at hread ⊢
    split
    · next h =>
      split at h
      · next heq =>
        simp only [List.cons.injEq] at heq
        exact absurd heq.1 hx45
      · rw [hread] at h
        simp only [Option.some.injEq, Prod.mk.injEq, List.cons.injEq] at h
        exact absurd h.2.1 hdot
    · next h =>
      split
      · next heq =>
        simp only [List.cons.injEq] at heq
        exact absurd heq.1 hx45
      · rw [hread]
        simp only [h2]

theorem readString_append (s : Bytes) (hs : ∀ c ∈ s, c ≠ 34 ∧ c ≠ 92) (rest : Bytes) :
    readString (s ++ 34 :: rest) = some (s, rest) := by
  induction s with
  | nil => simp [readString]
  | cons c cs ih =>
    have hc := hs c (List.mem_cons_self _ _)
    have h := ih (fun e he => hs e (List.mem_cons_of_mem _ he))
    simp only [List.cons_append, readString, hc.1, hc.2, ↓reduceIte]
    have h2 : readString (cs.append (34 :: rest)) = some (cs, rest) := h
    rw [h2]

theorem skipWs_cons (c : UInt8) (rest : Bytes) (h : isWs c = false) :
    skipWs (c :: rest) = c :: rest := by
  simp [skipWs, h]

/-! ## The codec: objects -/

theorem intText_head (v : Int) :
    ∃ x xs, intText v = x :: xs ∧ (x = 45 ∨ isDigit x = true) := by
  by_cases hv : v < 0
  · exact ⟨45, natText v.natAbs, by simp [intText, hv], Or.inl rfl⟩
  · obtain ⟨x, xs, hx, hdig⟩ := natText_head v.natAbs
    exact ⟨x, xs, by simp [intText, hv, hx], Or.inr hdig⟩

theorem text_head (f : JField) :
    ∃ x xs, f.text = x :: xs ∧ isWs x = false ∧ x ≠ 125 := by
  cases f with
  | bytes b => exact ⟨34, b64Encode b ++ [34], by simp [JField.text], by decide, by decide⟩
  | int64 v =>
    obtain ⟨x, xs, hx, h⟩ := intText_head v
    refine ⟨x, xs, hx, ?_, ?_⟩
    · rcases h with h | h
      · subst h; decide
      · simp only [isDigit, decide_eq_true_eq] at h
        have h32 : x ≠ 32 := fun e => by subst e; exact absurd h (by decide)
        have h9 : x ≠ 9 := fun e => by subst e; exact absurd h (by decide)
        have h10 : x ≠ 10 := fun e => by subst e; exact absurd h (by decide)
        have h13 : x ≠ 13 := fun e => by subst e; exact absurd h (by decide)
        simp [isWs, h32, h9, h10, h13]
    · rcases h with h | h
      · subst h; decide
      · intro e
        subst e
        exact absurd h (by decide)

theorem readValue_text (f : JField) (c : UInt8) (rest : Bytes) (hc : isDigit c = false)
    (hdot : c ≠ 46) : readValue (f.text ++ c :: rest) = some (f.toVal, c :: rest) := by
  cases f with
  | bytes b =>
    have h := readString_append (b64Encode b) (b64Encode_clean b) (c :: rest)
    simp only [JField.text, JField.toVal, List.cons_append, List.append_assoc,
      List.nil_append, readValue, h]
  | int64 v =>
    obtain ⟨x, xs, hx, h⟩ := intText_head v
    have hnum := readNumber_intText v c rest hc hdot
    have h34 : x ≠ 34 := by
      rcases h with h | h
      · subst h; decide
      · intro e; subst e; exact absurd h (by decide)
    have h110 : x ≠ 110 := by
      rcases h with h | h
      · subst h; decide
      · intro e; subst e; exact absurd h (by decide)
    simp only [JField.text, JField.toVal]
    rw [hx] at hnum ⊢
    simp only [List.cons_append] at hnum ⊢
    unfold readValue
    split
    · next heq =>
      simp only [List.cons.injEq] at heq
      exact absurd heq.1 h34
    · next heq =>
      simp only [List.cons.injEq] at heq
      exact absurd heq.1 h110
    · rw [hnum]

theorem membersText_length (fs : List (Bytes × JField)) :
    fs.length ≤ (membersText fs).length := by
  induction fs with
  | nil => simp
  | cons m ms ih =>
    cases ms with
    | nil => simp [membersText]
    | cons m2 ms2 =>
      simp only [membersText, List.length_cons, List.length_append] at ih ⊢
      omega

/-- The member reader on the text the encoder writes: it reads the members back,
each with the value `toVal` of what was written. -/
theorem readMembers_membersText (fs : List (Bytes × JField)) :
    ∀ (fuel : Nat) (rest : Bytes), fs ≠ [] → fs.length ≤ fuel →
      (∀ m ∈ fs, ∀ c ∈ m.1, c ≠ 34 ∧ c ≠ 92) →
      readMembers fuel (membersText fs ++ 125 :: rest)
        = some (fs.map (fun m => (m.1, m.2.toVal)), rest) := by
  induction fs with
  | nil => intro fuel rest h; exact absurd rfl h
  | cons m ms ih =>
    intro fuel rest _ hfuel hkeys
    obtain ⟨k, v⟩ := m
    have hk : ∀ c ∈ k, c ≠ 34 ∧ c ≠ 92 := hkeys (k, v) (List.mem_cons_self _ _)
    obtain ⟨x, xs, hx, hxws, _⟩ := text_head v
    cases fuel with
    | zero => simp at hfuel
    | succ fuel =>
      cases ms with
      | nil =>
        have hstr := readString_append k hk (58 :: (v.text ++ 125 :: rest))
        have hval := readValue_text v 125 rest (by decide) (by decide)
        have hws : skipWs (v.text ++ 125 :: rest) = v.text ++ 125 :: rest := by
          rw [hx]
          exact skipWs_cons x _ hxws
        simp only [membersText, List.cons_append, List.append_assoc, List.nil_append,
          readMembers, skipWs_cons 34 _ (by decide), hstr, skipWs_cons 58 _ (by decide),
          hws, hval, skipWs_cons 125 _ (by decide), List.map_cons, List.map_nil]
      | cons m2 ms2 =>
        have hstr := readString_append k hk
          (58 :: (v.text ++ 44 :: (membersText (m2 :: ms2) ++ 125 :: rest)))
        have hval := readValue_text v 44 (membersText (m2 :: ms2) ++ 125 :: rest)
          (by decide) (by decide)
        have hws : skipWs (v.text ++ 44 :: (membersText (m2 :: ms2) ++ 125 :: rest))
            = v.text ++ 44 :: (membersText (m2 :: ms2) ++ 125 :: rest) := by
          rw [hx]
          exact skipWs_cons x _ hxws
        have hrec := ih fuel rest (by simp) (by simpa using hfuel)
          (fun m hm => hkeys m (List.mem_cons_of_mem _ hm))
        simp only [membersText, List.cons_append, List.append_assoc, List.nil_append,
          readMembers, skipWs_cons 34 _ (by decide), hstr, skipWs_cons 58 _ (by decide),
          hws, hval, skipWs_cons 44 _ (by decide), List.map_cons]
        simp only [membersText, List.cons_append, List.append_assoc, List.nil_append,
          List.map_cons] at hrec
        rw [hrec]

theorem membersText_head (m : Bytes × JField) (ms : List (Bytes × JField)) :
    ∃ t, membersText (m :: ms) = 34 :: t := by
  obtain ⟨k, v⟩ := m
  cases ms with
  | nil => exact ⟨k ++ 34 :: 58 :: v.text, by simp [membersText]⟩
  | cons m2 ms2 =>
    exact ⟨k ++ 34 :: 58 :: (v.text ++ 44 :: membersText (m2 :: ms2)), by simp [membersText]⟩

/-- The decoder on the text the encoder writes for a struct with at least one
field: the members come back in order and nothing is left. -/
theorem jsonParseFirst_jsonMarshal (fs : List (Bytes × JField)) (hne : fs ≠ [])
    (hkeys : ∀ m ∈ fs, ∀ c ∈ m.1, c ≠ 34 ∧ c ≠ 92) :
    jsonParseFirst (jsonMarshal fs) = some (fs.map (fun m => (m.1, m.2.toVal)), []) := by
  cases fs with
  | nil => exact absurd rfl hne
  | cons m ms =>
    obtain ⟨t, ht⟩ := membersText_head m ms
    have hlen := membersText_length (m :: ms)
    have hread := readMembers_membersText (m :: ms)
      (jsonMarshal (m :: ms)).length [] hne
      (by simp only [jsonMarshal, List.length_cons, List.length_append] at hlen ⊢; omega)
      hkeys
    unfold jsonParseFirst
    simp only [jsonMarshal, List.cons_append] at hread ⊢
    rw [skipWs_cons 123 _ (by decide)]
    simp only []
    rw [ht] at hread ⊢
    simp only [List.cons_append] at hread ⊢
    rw [skipWs_cons 34 _ (by decide)]
    simp only [hread]
    split
    · next heq =>
      simp only [List.cons.injEq] at heq
      exact absurd heq.1 (by decide)
    · rfl

theorem jsonParse_jsonMarshal (fs : List (Bytes × JField)) (hne : fs ≠ [])
    (hkeys : ∀ m ∈ fs, ∀ c ∈ m.1, c ≠ 34 ∧ c ≠ 92) :
    jsonParse (jsonMarshal fs) = some (fs.map (fun m => (m.1, m.2.toVal))) := by
  unfold jsonParse
  rw [jsonParseFirst_jsonMarshal fs hne hkeys]
  rfl

/-! ## Claims on the codec -/

theorem marshal_keys_clean (b : Block) :
    ∀ m ∈ [(ascii "hash", JField.bytes b.hash), (ascii "merkleRoot", JField.bytes b.merkleRoot),
        (ascii "prevHash", JField.bytes b.prevHash), (ascii "nonce", JField.int64 b.nonce),
        (ascii "difficulty", JField.int64 b.difficulty),
        (ascii "timestamp", JField.int64 b.timestamp)],
      ∀ c ∈ m.1, c ≠ 34 ∧ c ≠ 92 := by
  intro m hm
  simp only [List.mem_cons, List.mem_singleton, List.not_mem_nil, or_false] at hm
  rcases hm with h | h | h | h | h | h <;> subst h
  · exact (by decide : ∀ c ∈ ascii "hash", c ≠ 34 ∧ c ≠ 92)
  · exact (by decide : ∀ c ∈ ascii "merkleRoot", c ≠ 34 ∧ c ≠ 92)
  · exact (by decide : ∀ c ∈ ascii "prevHash", c ≠ 34 ∧ c ≠ 92)
  · exact (by decide : ∀ c ∈ ascii "nonce", c ≠ 34 ∧ c ≠ 92)
  · exact (by decide : ∀ c ∈ ascii "difficulty", c ≠ 34 ∧ c ≠ 92)
  · exact (by decide : ∀ c ∈ ascii "timestamp", c ≠ 34 ∧ c ≠ 92)

/-- Decoding the record of a block whose numbers fit an `int64` gives the block
back, with no error. -/
theorem Deserialize_Serialize (b : Block) (hn : isInt64 b.nonce) (hd : isInt64 b.difficulty)
    (ht : isInt64 b.timestamp) :
    ∃ data, Serialize b = .ok data ∧ Deserialize data = (b, none) := by
  refine ⟨_, rfl, ?_⟩
  have hfirst := jsonParseFirst_jsonMarshal _ (by simp) (marshal_keys_clean b)
  have hparse := jsonParse_jsonMarshal _ (by simp) (marshal_keys_clean b)
  unfold Deserialize
  simp only [Serialize, MarshalJSON] at hfirst hparse ⊢
  rw [hfirst]
  simp only [List.length_nil, Nat.sub_zero, List.take_length]
  unfold UnmarshalJSON
  rw [hparse]
  have k1 : ascii "merkleRoot" ≠ ascii "hash" := by decide
  have k2 : ascii "prevHash" ≠ ascii "hash" := by decide
  have k3 : ascii "prevHash" ≠ ascii "merkleRoot" := by decide
  have k4 : ascii "nonce" ≠ ascii "hash" := by decide
  have k5 : ascii "nonce" ≠ ascii "merkleRoot" := by decide
  have k6 : ascii "nonce" ≠ ascii "prevHash" := by decide
  have k7 : ascii "difficulty" ≠ ascii "hash" := by decide
  have k8 : ascii "difficulty" ≠ ascii "merkleRoot" := by decide
  have k9 : ascii "difficulty" ≠ ascii "prevHash" := by decide
  have k10 : ascii "difficulty" ≠ ascii "nonce" := by decide
  have k11 : ascii "timestamp" ≠ ascii "hash" := by decide
  have k12 : ascii "timestamp" ≠ ascii "merkleRoot" := by decide
  have k13 : ascii "timestamp" ≠ ascii "prevHash" := by decide
  have k14 : ascii "timestamp" ≠ ascii "nonce" := by decide
  have k15 : ascii "timestamp" ≠ ascii "difficulty" := by decide
  simp only [List.map_cons, List.map_nil, JField.toVal, assignMembers, assignMember,
    decodeBytes, decodeInt64, b64Decode_b64Encode, Option.map_some', ↓reduceIte,
    k1, k2, k3, k4, k5, k6, k7, k8, k9, k10, k11, k12, k13, k14, k15, hn, hd, ht]
  rfl

/-- C5: for every block whose `nonce`, `difficulty` and `timestamp` are `int64`
values and whose `hash`, `merkleRoot` and `prevHash` are any byte strings (empty
ones included), `Serialize` succeeds, `Deserialize` of the record succeeds, and
the six fields of the decoded block equal those of the block. -/
theorem C5_codec_round_trip (b : Block) (hn : isInt64 b.nonce) (hd : isInt64 b.difficulty)
    (ht : isInt64 b.timestamp) :
    ∃ data, Serialize b = .ok data ∧ (Deserialize data).2 = none ∧
      (Deserialize data).1.hash = b.hash ∧
      (Deserialize data).1.merkleRoot = b.merkleRoot ∧
      (Deserialize data).1.prevHash = b.prevHash ∧
      (Deserialize data).1.nonce = b.nonce ∧
      (Deserialize data).1.difficulty = b.difficulty ∧
      (Deserialize data).1.timestamp = b.timestamp := by
  obtain ⟨data, hs, hdes⟩ := Deserialize_Serialize b hn hd ht
  exact ⟨data, hs, by simp [hdes]⟩

/-- C5, an instance: a block with three empty byte fields and the extreme
`int64` values. -/
theorem C5_codec_round_trip_witness :
    isInt64 (-9223372036854775808) ∧ isInt64 12 ∧ isInt64 9223372036854775807 ∧
    ∃ data,
      Serialize { hash := [], merkleRoot := [], prevHash := [],
                  nonce := -9223372036854775808, difficulty := 12,
                  timestamp := 9223372036854775807 } = .ok data ∧
      (Deserialize data).2 = none ∧
      (Deserialize data).1.hash = [] ∧
      (Deserialize data).1.merkleRoot = [] ∧
      (Deserialize data).1.prevHash = [] ∧
      (Deserialize data).1.nonce = -9223372036854775808 ∧
      (Deserialize data).1.difficulty = 12 ∧
      (Deserialize data).1.timestamp = 9223372036854775807 :=
  ⟨by decide, by decide, by decide,
    C5_codec_round_trip
      { hash := [], merkleRoot := [], prevHash := [], nonce := -9223372036854775808,
        difficulty := 12, timestamp := 9223372036854775807 }
      (by decide) (by decide) (by decide)⟩

/-! ## The ledger -/

theorem lastHashKey_length : lastHashKey.length = 9 := by decide

theorem hash_ne_lastHashKey (h : Bytes) (hl : h.length = 32) : h ≠ lastHashKey := by
  intro e
  rw [e, lastHashKey_length] at hl
  omega

theorem hash_ne_nil (h : Bytes) (hl : h.length = 32) : h ≠ [] := by
  intro e
  rw [e] at hl
  simp at hl

theorem txnGet_of_some (db : DB) (k v : Bytes) (hk : k ≠ []) (h : db k = some v) :
    txnGet db k = .ok v := by
  simp [txnGet, hk, h]

/-- The store after the two writes of a transaction that stores the block `nb`. -/
theorem addBlockTxn_ok (sha : Sha256) (now : Int) (db : DB) (data t : Bytes)
    (ht : db lastHashKey = some t) :
    addBlockTxn sha now db data
      = .ok (fun k =>
          if k = lastHashKey then some (sealedNew sha now data t difficulty).hash
          else if k = (sealedNew sha now data t difficulty).hash then
            some (jsonMarshal
              [(ascii "hash", .bytes (sealedNew sha now data t difficulty).hash),
               (ascii "merkleRoot", .bytes (sealedNew sha now data t difficulty).merkleRoot),
               (ascii "prevHash", .bytes (sealedNew sha now data t difficulty).prevHash),
               (ascii "nonce", .int64 (sealedNew sha now data t difficulty).nonce),
               (ascii "difficulty", .int64 (sealedNew sha now data t difficulty).difficulty),
               (ascii "timestamp", .int64 (sealedNew sha now data t difficulty).timestamp)])
          else db k) := by
  have hne := hash_ne_nil _ (sealedNew_hash_length sha now data t difficulty)
  have hk : lastHashKey ≠ [] := by decide
  simp only [addBlockTxn, txnGet_of_some db lastHashKey t hk ht, NewBlock_difficulty,
    Serialize, MarshalJSON, txnSet, hne, hk, ↓reduceIte]

theorem AddBlock_db (sha : Sha256) (now : Int) (chain : BlockChain) (data : Bytes) (db2 : DB)
    (h : addBlockTxn sha now chain.db data = .ok db2) :
    (AddBlock sha now chain data).db = db2 := by
  simp [AddBlock, h]

/-- What `AddBlock` does on a store with a tip, in terms of the block that
`NewBlock` returns at the constant `difficulty`. -/
theorem addBlock_effect (sha : Sha256) (now : Int) (chain : BlockChain) (data t : Bytes)
    (ht : chain.db lastHashKey = some t) :
    ∃ record,
      Serialize (sealedNew sha now data t difficulty) = .ok record ∧
      addBlockTxn sha now chain.db data = .ok (AddBlock sha now chain data).db ∧
      (AddBlock sha now chain data).db (sealedNew sha now data t difficulty).hash
        = some record ∧
      (AddBlock sha now chain data).db lastHashKey
        = some (sealedNew sha now data t difficulty).hash ∧
      ∀ k, k ≠ (sealedNew sha now data t difficulty).hash → k ≠ lastHashKey →
        (AddBlock sha now chain data).db k = chain.db k := by
  have hok := addBlockTxn_ok sha now chain.db data t ht
  have hdb := AddBlock_db sha now chain data _ hok
  have hne := hash_ne_lastHashKey _ (sealedNew_hash_length sha now data t difficulty)
  refine ⟨_, rfl, ?_, ?_, ?_, ?_⟩
  · rw [hdb]; exact hok
  · rw [hdb]
    simp only [hne, ↓reduceIte]
  · rw [hdb]
    simp only [↓reduceIte]
  · intro k hk1 hk2
    rw [hdb]
    simp only [hk1, hk2, ↓reduceIte]

/-- C7: for every store in which the tip key maps to a value `t`, `AddBlock(data)`
succeeds; the block `nb` that `NewBlock` seals for it has `merkleRoot = data`,
`prevHash = t` and difficulty `12`; the store afterwards binds `nb.hash` to
`Serialize(nb)` and the tip key to `nb.hash`, and every other key keeps its old
value. -/
theorem C7_add_block_effect (sha : Sha256) (now : Int) (chain : BlockChain) (data t : Bytes)
    (ht : chain.db lastHashKey = some t) :
    ∃ nb record,
      NewBlock sha now data t difficulty = some nb ∧
      Serialize nb = .ok record ∧
      addBlockTxn sha now chain.db data = .ok (AddBlock sha now chain data).db ∧
      nb.merkleRoot = data ∧
      nb.prevHash = t ∧
      nb.difficulty = 12 ∧
      (AddBlock sha now chain data).db nb.hash = some record ∧
      (AddBlock sha now chain data).db lastHashKey = some nb.hash ∧
      ∀ k, k ≠ nb.hash → k ≠ lastHashKey →
        (AddBlock sha now chain data).db k = chain.db k := by
  obtain ⟨record, h1, h2, h3, h4, h5⟩ := addBlock_effect sha now chain data t ht
  exact ⟨sealedNew sha now data t difficulty, record, NewBlock_difficulty sha now data t,
    h1, h2, rfl, rfl, rfl, h3, h4, h5⟩

/-- C7, an instance: a store that holds only the tip key, bound to `[1, 2, 3]`. -/
theorem C7_add_block_effect_witness :
    (fun k => if k = lastHashKey then some [1, 2, 3] else none : DB) lastHashKey
      = some [1, 2, 3] ∧
    ∃ nb record,
      NewBlock demoSha 1700 (ascii "A") [1, 2, 3] difficulty = some nb ∧
      Serialize nb = .ok record ∧
      addBlockTxn demoSha 1700
          (fun k => if k = lastHashKey then some [1, 2, 3] else none) (ascii "A")
        = .ok (AddBlock demoSha 1700
            ⟨[1, 2, 3], fun k => if k = lastHashKey then some [1, 2, 3] else none⟩
            (ascii "A")).db ∧
      nb.merkleRoot = ascii "A" ∧
      nb.prevHash = [1, 2, 3] ∧
      nb.difficulty = 12 ∧
      (AddBlock demoSha 1700
          ⟨[1, 2, 3], fun k => if k = lastHashKey then some [1, 2, 3] else none⟩
          (ascii "A")).db nb.hash
        = some record ∧
      (AddBlock demoSha 1700
          ⟨[1, 2, 3], fun k => if k = lastHashKey then some [1, 2, 3] else none⟩
          (ascii "A")).db lastHashKey
        = some nb.hash ∧
      ∀ k, k ≠ nb.hash → k ≠ lastHashKey →
        (AddBlock demoSha 1700
          ⟨[1, 2, 3], fun k => if k = lastHashKey then some [1, 2, 3] else none⟩
          (ascii "A")).db k
          = (fun k => if k = lastHashKey then some [1, 2, 3] else none : DB) k :=
  ⟨by decide,
    C7_add_block_effect demoSha 1700
      ⟨[1, 2, 3], fun k => if k = lastHashKey then some [1, 2, 3] else none⟩
      (ascii "A") [1, 2, 3] (by decide)⟩

theorem sealedNew_nonce_int64 (sha : Sha256) (now : Int) (root prev : Bytes) (d : Int) :
    isInt64 (sealedNew sha now root prev d).nonce := by
  obtain ⟨n, hn, _, hcase⟩ := sealedNew_spec sha now root prev d
  rw [hn]
  have hle : n ≤ maxInt64 := by
    rcases hcase with ⟨h, _⟩ | ⟨h, _⟩ <;> omega
  unfold isInt64 minInt64
  unfold maxInt64 at hle ⊢
  omega

/-- The record of a sealed block decodes to the block, when the clock reading
is an `int64`. -/
theorem Deserialize_sealedNew (sha : Sha256) (now : Int) (root prev : Bytes)
    (hnow : isInt64 now) :
    ∃ record, Serialize (sealedNew sha now root prev difficulty) = .ok record ∧
      Deserialize record = (sealedNew sha now root prev difficulty, none) :=
  Deserialize_Serialize (sealedNew sha now root prev difficulty)
    (sealedNew_nonce_int64 sha now root prev difficulty)
    (show isInt64 difficulty by decide) hnow

theorem Next_of_record (db : DB) (h record : Bytes) (b : Block) (hne : h ≠ [])
    (hdb : db h = some record) (hdec : Deserialize record = (b, none)) :
    Iterator.Next db { currentHash := h } = (some b, { currentHash := b.prevHash }) := by
  simp [Iterator.Next, nextView, txnGet, hne, hdb, hdec]

theorem Next_empty (db : DB) :
    Iterator.Next db { currentHash := [] } = (none, { currentHash := [] }) := by
  simp [Iterator.Next, nextView, txnGet]

theorem Next_absent (db : DB) (h : Bytes) (hdb : db h = none) :
    Iterator.Next db { currentHash := h } = (none, { currentHash := h }) := by
  by_cases hne : h = []
  · subst hne; exact Next_empty db
  · simp [Iterator.Next, nextView, txnGet, hne, hdb]

/-- An iterator seeded at a stored block with an empty `prevHash` returns that
block and then the nil block. -/
theorem nextResults_last (db : DB) (g : Block) (record : Bytes) (hne : g.hash ≠ [])
    (hdb : db g.hash = some record) (hdec : Deserialize record = (g, none))
    (hprev : g.prevHash = []) :
    nextResults db 2 (NewIterator g.hash) = [some g, none] := by
  simp only [nextResults, NewIterator]
  rw [Next_of_record db g.hash record g hne hdb hdec]
  simp only [hprev, Next_empty]

/-- The store and the result of the bootstrap transaction. -/
theorem createBlockChain_ok (sha : Sha256) (now : Int) (db : DB) :
    createBlockChain sha now db
      = ((fun k =>
          if k = lastHashKey then some (sealedGenesis sha now genesisData difficulty).hash
          else if k = (sealedGenesis sha now genesisData difficulty).hash then
            some (jsonMarshal
              [(ascii "hash", .bytes (sealedGenesis sha now genesisData difficulty).hash),
               (ascii "merkleRoot",
                 .bytes (sealedGenesis sha now genesisData difficulty).merkleRoot),
               (ascii "prevHash", .bytes (sealedGenesis sha now genesisData difficulty).prevHash),
               (ascii "nonce", .int64 (sealedGenesis sha now genesisData difficulty).nonce),
               (ascii "difficulty",
                 .int64 (sealedGenesis sha now genesisData difficulty).difficulty),
               (ascii "timestamp",
                 .int64 (sealedGenesis sha now genesisData difficulty).timestamp)])
          else db k),
        (sealedGenesis sha now genesisData difficulty).hash, none) := by
  have hne := hash_ne_nil _ (sealedNew_hash_length sha now genesisData [] difficulty)
  have hk : lastHashKey ≠ [] := by decide
  unfold createBlockChain createBlockChainTxn
  rw [GenesisBlock_difficulty]
  simp only [Serialize, MarshalJSON, txnSet, sealedGenesis, hne, hk, ↓reduceIte]

/-- The bootstrap transaction on the empty store returns the hash of the
genesis block as the tip and leaves exactly two bindings, `genesis.hash` to
`Serialize(genesis)` and the tip key to `genesis.hash`; the genesis block has an
empty `prevHash`, the payload "First Transaction from Genesis" and difficulty
`12`; an iterator seeded at the tip returns the genesis block on the first
`Next` and the nil block on the second. -/
theorem bootstrap_effect (sha : Sha256) (now : Int) (hnow : isInt64 now) :
    ∃ record,
      Serialize (sealedGenesis sha now genesisData difficulty) = .ok record ∧
      (createBlockChain sha now emptyDB).2
        = ((sealedGenesis sha now genesisData difficulty).hash, none) ∧
      (∀ k, (createBlockChain sha now emptyDB).1 k
        = if k = lastHashKey then some (sealedGenesis sha now genesisData difficulty).hash
          else if k = (sealedGenesis sha now genesisData difficulty).hash then some record
          else none) ∧
      (sealedGenesis sha now genesisData difficulty).hash ≠ lastHashKey ∧
      (sealedGenesis sha now genesisData difficulty).prevHash = [] ∧
      (sealedGenesis sha now genesisData difficulty).merkleRoot
        = ascii "First Transaction from Genesis" ∧
      (sealedGenesis sha now genesisData difficulty).difficulty = 12 ∧
      nextResults (createBlockChain sha now emptyDB).1 2
          (NewIterator (createBlockChain sha now emptyDB).2.1)
        = [some (sealedGenesis sha now genesisData difficulty), none] := by
  obtain ⟨record, hser, hdec⟩ := Deserialize_sealedNew sha now genesisData [] hnow
  have hlen := sealedNew_hash_length sha now genesisData [] difficulty
  have hne := hash_ne_lastHashKey _ hlen
  have hnil := hash_ne_nil _ hlen
  have hrec : record = jsonMarshal
      [(ascii "hash", .bytes (sealedGenesis sha now genesisData difficulty).hash),
       (ascii "merkleRoot", .bytes (sealedGenesis sha now genesisData difficulty).merkleRoot),
       (ascii "prevHash", .bytes (sealedGenesis sha now genesisData difficulty).prevHash),
       (ascii "nonce", .int64 (sealedGenesis sha now genesisData difficulty).nonce),
       (ascii "difficulty", .int64 (sealedGenesis sha now genesisData difficulty).difficulty),
       (ascii "timestamp", .int64 (sealedGenesis sha now genesisData difficulty).timestamp)] := by
    have h : Except.ok record = (Except.ok _ : Except String Bytes) := hser.symm.trans rfl
    exact Except.ok.inj h
  refine ⟨record, hser, ?_, ?_, hne, rfl, rfl, rfl, ?_⟩
  · rw [createBlockChain_ok]
  · intro k
    rw [createBlockChain_ok, hrec]
    rfl
  · rw [createBlockChain_ok]
    have hdb : (fun k =>
          if k = lastHashKey then some (sealedGenesis sha now genesisData difficulty).hash
          else if k = (sealedGenesis sha now genesisData difficulty).hash then some record
          else emptyDB k) (sealedGenesis sha now genesisData difficulty).hash = some record := by
      have hne2 : (sealedGenesis sha now genesisData difficulty).hash ≠ lastHashKey := hne
      simp only [hne2, ↓reduceIte]
    rw [← hrec]
    exact nextResults_last _ (sealedGenesis sha now genesisData difficulty) record hnil hdb
      hdec rfl

/-- C9: the bootstrap transaction on the empty store returns the hash of the
genesis block as the tip and leaves exactly two bindings, `genesis.hash` to
`Serialize(genesis)` and the tip key to `genesis.hash`; the genesis block, the
one `GenesisBlock` returns, has an empty `prevHash`, the payload "First
Transaction from Genesis" and difficulty `12`; an iterator seeded at the tip
returns the genesis block on the first `Next` and the nil block on the second. -/
theorem C9_bootstrap (sha : Sha256) (now : Int) (hnow : isInt64 now) :
    ∃ genesis record,
      GenesisBlock sha now genesisData difficulty = some genesis ∧
      Serialize genesis = .ok record ∧
      (createBlockChain sha now emptyDB).2 = (genesis.hash, none) ∧
      (∀ k, (createBlockChain sha now emptyDB).1 k
        = if k = lastHashKey then some genesis.hash
          else if k = genesis.hash then some record
          else none) ∧
      genesis.hash ≠ lastHashKey ∧
      genesis.prevHash = [] ∧
      genesis.merkleRoot = ascii "First Transaction from Genesis" ∧
      genesis.difficulty = 12 ∧
      nextResults (createBlockChain sha now emptyDB).1 2
          (NewIterator (createBlockChain sha now emptyDB).2.1)
        = [some genesis, none] := by
  obtain ⟨record, h⟩ := bootstrap_effect sha now hnow
  exact ⟨sealedGenesis sha now genesisData difficulty, record,
    GenesisBlock_difficulty sha now genesisData, h⟩

/-- C9, an instance: the bootstrap with the digest function `demoSha` and the
clock reading `1700`. -/
theorem C9_bootstrap_witness :
    isInt64 1700 ∧
    ∃ genesis record,
      GenesisBlock demoSha 1700 genesisData difficulty = some genesis ∧
      Serialize genesis = .ok record ∧
      (createBlockChain demoSha 1700 emptyDB).2 = (genesis.hash, none) ∧
      (∀ k, (createBlockChain demoSha 1700 emptyDB).1 k
        = if k = lastHashKey then some genesis.hash
          else if k = genesis.hash then some record
          else none) ∧
      genesis.hash ≠ lastHashKey ∧
      genesis.prevHash = [] ∧
      genesis.merkleRoot = ascii "First Transaction from Genesis" ∧
      genesis.difficulty = 12 ∧
      nextResults (createBlockChain demoSha 1700 emptyDB).1 2
          (NewIterator (createBlockChain demoSha 1700 emptyDB).2.1)
        = [some genesis, none] :=
  ⟨by decide, C9_bootstrap demoSha 1700 (by decide)⟩

theorem AddBlock_lastHash (sha : Sha256) (now : Int) (chain : BlockChain) (data : Bytes) :
    (AddBlock sha now chain data).lastHash = chain.lastHash := by
  unfold AddBlock
  split <;> rfl

theorem bootstrapLedger_lastHash (sha : Sha256) (now : Int) :
    (bootstrapLedger sha now).lastHash = (sealedGenesis sha now genesisData difficulty).hash := by
  simp only [bootstrapLedger, createBlockChain_ok]

set_option maxRecDepth 100000 in
/-- C8, the code at the failing input: on a ledger that was just bootstrapped,
after `AddBlock("A")` and `AddBlock("B")` the iterator of the same instance is
seeded at the hash of the genesis block, whatever the digest function and the
clock readings, because `AddBlock` never assigns `lastHash`. With the digest
function `demoSha` and the clock readings `1`, `2`, `3`: the tip key of the store
holds the hash of block B, the cached tip differs from it, and the iterator
returns the genesis block and then the nil block. -/
theorem C8_cached_tip_not_advanced :
    (∀ (sha : Sha256) (now0 nowA nowB : Int),
      ∃ genesis, GenesisBlock sha now0 genesisData difficulty = some genesis ∧
        (appendAll sha (bootstrapLedger sha now0)
            [(nowA, ascii "A"), (nowB, ascii "B")]).Iterator
          = NewIterator genesis.hash) ∧
    (∃ genesis blockA blockB,
      GenesisBlock demoSha 1 genesisData difficulty = some genesis ∧
      NewBlock demoSha 2 (ascii "A") genesis.hash difficulty = some blockA ∧
      NewBlock demoSha 3 (ascii "B") blockA.hash difficulty = some blockB ∧
      (appendAll demoSha (bootstrapLedger demoSha 1) [(2, ascii "A"), (3, ascii "B")]).db
          lastHashKey
        = some blockB.hash ∧
      (appendAll demoSha (bootstrapLedger demoSha 1) [(2, ascii "A"), (3, ascii "B")]).lastHash
        ≠ blockB.hash ∧
      nextResults
          (appendAll demoSha (bootstrapLedger demoSha 1) [(2, ascii "A"), (3, ascii "B")]).db 3
          (appendAll demoSha (bootstrapLedger demoSha 1)
            [(2, ascii "A"), (3, ascii "B")]).Iterator
        = [some genesis, none, none]) := by
  refine ⟨?_, sealedGenesis demoSha 1 genesisData difficulty,
    sealedNew demoSha 2 (ascii "A") (sealedGenesis demoSha 1 genesisData difficulty).hash
      difficulty,
    sealedNew demoSha 3 (ascii "B")
      (sealedNew demoSha 2 (ascii "A") (sealedGenesis demoSha 1 genesisData difficulty).hash
        difficulty).hash difficulty,
    by decide, by decide, by decide, by decide, by decide, by decide⟩
  intro sha now0 nowA nowB
  refine ⟨_, GenesisBlock_difficulty sha now0 genesisData, ?_⟩
  simp only [appendAll, List.foldl_cons, List.foldl_nil, BlockChain.Iterator,
    AddBlock_lastHash, bootstrapLedger_lastHash]

theorem continueBlockChain_ok (db : DB) (t : Bytes) (ht : db lastHashKey = some t) :
    continueBlockChain db = (db, t, none) := by
  have hk : lastHashKey ≠ [] := by decide
  simp only [continueBlockChain, continueBlockChainTxn, txnGet_of_some db lastHashKey t hk ht]

/-- After `AddBlock` on a store with a tip, the tip key holds the hash of the
new block, which is 32 bytes long. -/
theorem AddBlock_tip (sha : Sha256) (now : Int) (chain : BlockChain) (data t : Bytes)
    (ht : chain.db lastHashKey = some t) :
    (AddBlock sha now chain data).db lastHashKey
        = some (sealedNew sha now data t difficulty).hash ∧
      (sealedNew sha now data t difficulty).hash.length = 32 := by
  have hok := addBlockTxn_ok sha now chain.db data t ht
  refine ⟨?_, sealedNew_hash_length sha now data t difficulty⟩
  rw [AddBlock_db sha now chain data _ hok]
  simp only [↓reduceIte]

theorem appendAll_tip (sha : Sha256) (appends : List (Int × Bytes)) :
    ∀ chain : BlockChain,
      (∃ t, chain.db lastHashKey = some t ∧ t.length = 32) →
      ∃ t, (appendAll sha chain appends).db lastHashKey = some t ∧ t.length = 32 := by
  induction appends with
  | nil => intro chain h; exact h
  | cons a rest ih =>
    intro chain h
    obtain ⟨t, ht, _⟩ := h
    have h2 := AddBlock_tip sha a.1 chain a.2 t ht
    exact ih (AddBlock sha a.1 chain a.2) ⟨_, h2.1, h2.2⟩

theorem bootstrapLedger_tip (sha : Sha256) (now : Int) :
    (bootstrapLedger sha now).db lastHashKey
        = some (sealedGenesis sha now genesisData difficulty).hash ∧
      (sealedGenesis sha now genesisData difficulty).hash.length = 32 := by
  refine ⟨?_, sealedNew_hash_length sha now genesisData [] difficulty⟩
  simp only [bootstrapLedger, createBlockChain_ok, ↓reduceIte]

theorem appendAll_snoc (sha : Sha256) (chain : BlockChain) (init : List (Int × Bytes))
    (a : Int × Bytes) :
    appendAll sha chain (init ++ [a]) = AddBlock sha a.1 (appendAll sha chain init) a.2 := by
  simp only [appendAll, List.foldl_append, List.foldl_cons, List.foldl_nil]

theorem appendAll_tip_some (sha : Sha256) (appends : List (Int × Bytes)) :
    ∀ chain : BlockChain,
      (∃ t, chain.db lastHashKey = some t) →
      ∃ t, (appendAll sha chain appends).db lastHashKey = some t := by
  induction appends with
  | nil => intro chain h; exact h
  | cons a rest ih =>
    intro chain h
    obtain ⟨t, ht⟩ := h
    exact ih (AddBlock sha a.1 chain a.2) ⟨_, (AddBlock_tip sha a.1 chain a.2 t ht).1⟩

/-- The list `sealedBlocks` is the list of the blocks that the constructors return
at the constant `difficulty`. -/
theorem sealedBlocks_eq (sha : Sha256) (now0 : Int) (appends : List (Int × Bytes)) :
    sealedBlocks sha now0 appends = sealedChain sha now0 appends := by
  unfold sealedBlocks sealedChain
  rw [GenesisBlock_difficulty]
  congr 1
  funext acc a
  cases acc with
  | nil => rfl
  | cons b rest => simp only [NewBlock_difficulty]

/-- The tip key of a ledger holds the hash of the head of the list of its sealed
blocks, the block sealed last. -/
theorem appendAll_tip_head (sha : Sha256) (appends : List (Int × Bytes)) :
    ∀ (chain : BlockChain) (b : Block) (rest : List Block),
      chain.db lastHashKey = some b.hash → b.hash.length = 32 →
      ∃ b1 rest1,
        appends.foldl
            (fun acc a =>
              match acc with
              | [] => []
              | x :: r => sealedNew sha a.1 a.2 x.hash difficulty :: x :: r)
            (b :: rest) = b1 :: rest1 ∧
        (appendAll sha chain appends).db lastHashKey = some b1.hash ∧
        b1.hash.length = 32 := by
  induction appends with
  | nil => intro chain b rest h hl; exact ⟨b, rest, rfl, h, hl⟩
  | cons a more ih =>
    intro chain b rest h hl
    have h2 := AddBlock_tip sha a.1 chain a.2 b.hash h
    exact ih (AddBlock sha a.1 chain a.2) (sealedNew sha a.1 a.2 b.hash difficulty) (b :: rest)
      h2.1 h2.2

theorem ledger_tip_head (sha : Sha256) (now0 : Int) (appends : List (Int × Bytes)) :
    ∃ b rest, sealedBlocks sha now0 appends = b :: rest ∧
      (appendAll sha (bootstrapLedger sha now0) appends).db lastHashKey = some b.hash ∧
      b.hash.length = 32 := by
  rw [sealedBlocks_eq]
  exact appendAll_tip_head sha appends (bootstrapLedger sha now0)
    (sealedGenesis sha now0 genesisData difficulty) []
    (bootstrapLedger_tip sha now0).1 (bootstrapLedger_tip sha now0).2

/-- The store after `AddBlock` does not depend on the cached tip of the ledger
instance. -/
theorem AddBlock_db_cached (sha : Sha256) (now : Int) (chain : BlockChain) (data cached : Bytes) :
    (AddBlock sha now ⟨cached, chain.db⟩ data).db = (AddBlock sha now chain data).db := by
  unfold AddBlock
  cases addBlockTxn sha now chain.db data <;> rfl

/-- C10: recovery on the store of a ledger whose tip key maps to `t` returns `t`
with no error and leaves the store as it is, and `NewBlockChain` on that store
returns a ledger whose cached tip is `t`. A following `AddBlock`, on a ledger
instance over that store whatever its cached tip, stores a block `nb` whose
`prevHash` is `t`, binds the tip key to `nb.hash` and changes no other key, and
recovery on the store afterwards returns `nb.hash`. After any sequence of
appends that ends with the append of `data`, recovery returns the hash of the
block sealed for `data`, the block appended last. On a ledger made by the
bootstrap and any sequence of appends, recovery returns the hash of the head of
`sealedBlocks`, the block sealed last, and the block that a following `AddBlock`
writes, the only record it writes, has that hash as its `prevHash`, which is
not empty. -/
theorem C10_recovery (sha : Sha256) (chain : BlockChain) (t : Bytes)
    (ht : chain.db lastHashKey = some t) :
    continueBlockChain chain.db = (chain.db, t, none) ∧
    (∀ (now : Int) (manifest : Bool),
      NewBlockChain sha now none ⟨manifest, chain.db⟩
        = (⟨true, chain.db⟩, .ok { lastHash := t, db := chain.db })) ∧
    (∀ (now : Int) (data : Bytes),
      ∃ nb record,
        NewBlock sha now data t difficulty = some nb ∧
        Serialize nb = .ok record ∧
        nb.prevHash = t ∧
        (AddBlock sha now chain data).db nb.hash = some record ∧
        (AddBlock sha now chain data).db lastHashKey = some nb.hash ∧
        (∀ k, k ≠ nb.hash → k ≠ lastHashKey →
          (AddBlock sha now chain data).db k = chain.db k) ∧
        (∀ cached : Bytes,
          (AddBlock sha now ⟨cached, chain.db⟩ data).db = (AddBlock sha now chain data).db) ∧
        continueBlockChain (AddBlock sha now chain data).db
          = ((AddBlock sha now chain data).db, nb.hash, none)) ∧
    (∀ (init : List (Int × Bytes)) (now : Int) (data : Bytes),
      ∃ t1 nb,
        (appendAll sha chain init).db lastHashKey = some t1 ∧
        NewBlock sha now data t1 difficulty = some nb ∧
        continueBlockChain (appendAll sha chain (init ++ [(now, data)])).db
          = ((appendAll sha chain (init ++ [(now, data)])).db, nb.hash, none)) ∧
    (∀ (now0 : Int) (appends : List (Int × Bytes)),
      ∃ b rest,
        sealedBlocks sha now0 appends = b :: rest ∧
        continueBlockChain (appendAll sha (bootstrapLedger sha now0) appends).db
          = ((appendAll sha (bootstrapLedger sha now0) appends).db, b.hash, none) ∧
        ∀ (now : Int) (data : Bytes),
          ∃ nb record,
            NewBlock sha now data b.hash difficulty = some nb ∧
            Serialize nb = .ok record ∧
            nb.prevHash = b.hash ∧
            nb.prevHash ≠ [] ∧
            (AddBlock sha now (appendAll sha (bootstrapLedger sha now0) appends) data).db nb.hash
              = some record ∧
            ∀ k, k ≠ nb.hash → k ≠ lastHashKey →
              (AddBlock sha now (appendAll sha (bootstrapLedger sha now0) appends) data).db k
                = (appendAll sha (bootstrapLedger sha now0) appends).db k) := by
  refine ⟨continueBlockChain_ok chain.db t ht, ?_, ?_, ?_, ?_⟩
  · intro now manifest
    simp only [NewBlockChain, badgerOpen, Bool.not_true, Bool.false_eq_true, ↓reduceIte,
      continueBlockChain_ok chain.db t ht]
  · intro now data
    obtain ⟨record, h1, _, h3, h4, h5⟩ := addBlock_effect sha now chain data t ht
    exact ⟨sealedNew sha now data t difficulty, record, NewBlock_difficulty sha now data t,
      h1, rfl, h3, h4, h5, fun cached => AddBlock_db_cached sha now chain data cached,
      continueBlockChain_ok _ _ h4⟩
  · intro init now data
    obtain ⟨t1, ht1⟩ := appendAll_tip_some sha init chain ⟨t, ht⟩
    refine ⟨t1, sealedNew sha now data t1 difficulty, ht1, NewBlock_difficulty sha now data t1,
      ?_⟩
    rw [appendAll_snoc]
    exact continueBlockChain_ok _ _ (AddBlock_tip sha now (appendAll sha chain init) data t1 ht1).1
  · intro now0 appends
    obtain ⟨b, rest, hs, htip, hlen⟩ := ledger_tip_head sha now0 appends
    refine ⟨b, rest, hs, continueBlockChain_ok _ _ htip, ?_⟩
    intro now data
    obtain ⟨record, h1, _, h3, _, h5⟩ := addBlock_effect sha now
      (appendAll sha (bootstrapLedger sha now0) appends) data b.hash htip
    exact ⟨sealedNew sha now data b.hash difficulty, record,
      NewBlock_difficulty sha now data b.hash, h1, rfl, hash_ne_nil _ hlen, h3, h5⟩

/-- C10, an instance: a ledger whose cached tip is empty over a store that holds
only the tip key, bound to `[1, 2, 3]`; recovery returns `[1, 2, 3]`. -/
theorem C10_recovery_witness :
    (⟨[], fun k => if k = lastHashKey then some [1, 2, 3] else none⟩ : BlockChain).db lastHashKey
      = some [1, 2, 3] ∧
    continueBlockChain
        (⟨[], fun k => if k = lastHashKey then some [1, 2, 3] else none⟩ : BlockChain).db
      = ((⟨[], fun k => if k = lastHashKey then some [1, 2, 3] else none⟩ : BlockChain).db,
          [1, 2, 3], none) :=
  ⟨by decide,
    (C10_recovery demoSha ⟨[], fun k => if k = lastHashKey then some [1, 2, 3] else none⟩
      [1, 2, 3] (by decide)).1⟩

/-! ## Claims on the iterator -/

/-- C11, the code at the failing input: on a store that binds the key `[1]` to
the bytes `not json`, `Deserialize` of that value returns the zero block together
with an error, and `Next` on an iterator whose cursor is `[1]` returns that zero
block, not the nil block, and leaves the cursor where it was. The lookup half
of the claim holds: when the key is absent, `Next` returns the nil block. -/
theorem C11_next_on_decode_failure :
    (Deserialize (ascii "not json")).1 = zeroBlock ∧
    (Deserialize (ascii "not json")).2 ≠ none ∧
    Iterator.Next (fun k => if k = [1] then some (ascii "not json") else none)
        { currentHash := [1] }
      = (some zeroBlock, { currentHash := [1] }) ∧
    (∀ (db : DB) (h : Bytes), db h = none →
      Iterator.Next db { currentHash := h } = (none, { currentHash := h })) :=
  ⟨by decide, by decide, by decide, Next_absent⟩

theorem txnGet_ok (db : DB) (k v : Bytes) (h : txnGet db k = .ok v) :
    db k = some v ∧ k ≠ [] := by
  unfold txnGet at h
  split at h
  · cases h
  · next hk =>
    split at h
    · cases h
    · next hv =>
      cases h
      exact ⟨hv, hk⟩

/-- Once a call of `Next` has returned the nil block, or a block with an empty
`prevHash` out of a record that decoded, the iterator is at a fixed point: the
next call returns the nil block and leaves it there. -/
theorem Next_exhausted (db : DB) (i : Iterator)
    (hdec : ∀ v, db i.currentHash = some v → (Deserialize v).2 = none)
    (hend : (i.Next db).1 = none ∨ ∃ b, (i.Next db).1 = some b ∧ b.prevHash = []) :
    Iterator.Next db (i.Next db).2 = (none, (i.Next db).2) := by
  obtain ⟨h⟩ := i
  cases hget : txnGet db h with
  | error e =>
    have hN : Iterator.Next db { currentHash := h } = (none, { currentHash := h }) := by
      simp [Iterator.Next, nextView, hget]
    rw [hN]
    exact hN
  | ok value =>
    obtain ⟨hdb, hne⟩ := txnGet_ok db h value hget
    have hd := hdec value hdb
    have hD : Deserialize value = ((Deserialize value).1, none) := by
      rw [← hd]
    have hN := Next_of_record db h value (Deserialize value).1 hne hdb hD
    rw [hN] at hend ⊢
    rcases hend with h1 | ⟨b, h1, h2⟩
    · simp at h1
    · simp only [Option.some.injEq] at h1
      rw [h1, h2]
      exact Next_empty db

theorem nextResults_fixed (db : DB) (i : Iterator) (h : Iterator.Next db i = (none, i)) :
    ∀ n, nextResults db n i = List.replicate n none := by
  intro n
  induction n with
  | zero => rfl
  | succ k ih =>
    simp only [nextResults, h, List.replicate_succ]
    rw [ih]

/-- C12: over an unchanged store, if the record under the cursor (when there is
one) decodes successfully, then once `Next` has returned a block whose `prevHash`
is empty or has returned the nil block, every later call of `Next` on that
iterator returns the nil block. -/
theorem C12_exhausted_absorbing (db : DB) (i : Iterator)
    (hdec : ∀ v, db i.currentHash = some v → (Deserialize v).2 = none)
    (hend : (i.Next db).1 = none ∨ ∃ b, (i.Next db).1 = some b ∧ b.prevHash = []) :
    ∀ n, nextResults db n (i.Next db).2 = List.replicate n none :=
  nextResults_fixed db _ (Next_exhausted db i hdec hend)

set_option maxRecDepth 100000 in
/-- C12, an instance: the store right after the bootstrap with `demoSha`, and an
iterator seeded at the genesis hash; its first `Next` returns the genesis block,
whose `prevHash` is empty. -/
theorem C12_exhausted_absorbing_witness :
    (∀ v, (createBlockChain demoSha 1700 emptyDB).1 (NewIterator (createBlockChain demoSha 1700 emptyDB).2.1).currentHash = some v →
      (Deserialize v).2 = none) ∧
    ((Iterator.Next (createBlockChain demoSha 1700 emptyDB).1 (NewIterator (createBlockChain demoSha 1700 emptyDB).2.1)).1 = none ∨
      ∃ b, (Iterator.Next (createBlockChain demoSha 1700 emptyDB).1 (NewIterator (createBlockChain demoSha 1700 emptyDB).2.1)).1 = some b ∧ b.prevHash = []) ∧
    ∀ n, nextResults (createBlockChain demoSha 1700 emptyDB).1 n
        (Iterator.Next (createBlockChain demoSha 1700 emptyDB).1 (NewIterator (createBlockChain demoSha 1700 emptyDB).2.1)).2
      = List.replicate n none := by
  have h1 : ∀ v, (createBlockChain demoSha 1700 emptyDB).1 (NewIterator (createBlockChain demoSha 1700 emptyDB).2.1).currentHash = some v →
      (Deserialize v).2 = none := by
    intro v hv
    have h : (createBlockChain demoSha 1700 emptyDB).1 (sealedGenesis demoSha 1700 genesisData difficulty).hash
        = some (((createBlockChain demoSha 1700 emptyDB).1 (sealedGenesis demoSha 1700 genesisData difficulty).hash).getD []) := by decide
    have hv2 : some (((createBlockChain demoSha 1700 emptyDB).1 (sealedGenesis demoSha 1700 genesisData difficulty).hash).getD []) = some v := h.symm.trans hv
    rw [← Option.some.inj hv2]
    decide
  have h2 : (Iterator.Next (createBlockChain demoSha 1700 emptyDB).1 (NewIterator (createBlockChain demoSha 1700 emptyDB).2.1)).1 = none ∨
      ∃ b, (Iterator.Next (createBlockChain demoSha 1700 emptyDB).1 (NewIterator (createBlockChain demoSha 1700 emptyDB).2.1)).1 = some b ∧ b.prevHash = [] :=
    Or.inr ⟨(sealedGenesis demoSha 1700 genesisData difficulty), by decide, by decide⟩
  exact ⟨h1, h2, C12_exhausted_absorbing _ _ h1 h2⟩

/-! ## Atomicity of `AddBlock` -/

theorem addBlockTxnUnder_noFaults (sha : Sha256) (now : Int) (db : DB) (data : Bytes) :
    addBlockTxnUnder noFaults sha now db data = addBlockTxn sha now db data := by
  unfold addBlockTxnUnder addBlockTxn
  cases txnGet db lastHashKey with
  | error e => rfl
  | ok lastHash =>
    cases NewBlock sha now data lastHash difficulty with
    | none => rfl
    | some nb => rfl

/-- Each failure of a step makes the body of the transaction return an error:
an absent tip key, a failing copy of the tip value, a failing encoder, a
refused first write, a refused second write. -/
theorem addBlockTxnUnder_fails (g : Faults) (sha : Sha256) (now : Int) (db : DB) (data : Bytes)
    (h : db lastHashKey = none ∨ g.valueCopy ≠ none ∨ g.serialize ≠ none ∨
      ∃ t nb record, db lastHashKey = some t ∧ NewBlock sha now data t difficulty = some nb ∧
        Serialize nb = .ok record ∧
        (g.refuses nb.hash record ≠ none ∨ g.refuses lastHashKey nb.hash ≠ none)) :
    (addBlockTxnUnder g sha now db data).isOk = false := by
  unfold addBlockTxnUnder
  split
  · rfl
  · next lastHash hget =>
    split
    · rfl
    · next hvc =>
      split
      · rfl
      · next nb hnb =>
        split
        · rfl
        · next record hser =>
          split
          · rfl
          · next db1 hset1 =>
            split
            · rfl
            · next db2 hset2 =>
              exfalso
              obtain ⟨hdb, _⟩ := txnGet_ok db lastHashKey lastHash hget
              have hs : g.serialize = none ∧ Serialize nb = .ok record := by
                unfold serializeUnder at hser
                cases hgs : g.serialize with
                | some e => rw [hgs] at hser; cases hser
                | none => rw [hgs] at hser; exact ⟨rfl, hser⟩
              have hr1 : g.refuses nb.hash record = none := by
                unfold txnSetUnder at hset1
                cases hg : g.refuses nb.hash record with
                | some e => rw [hg] at hset1; cases hset1
                | none => rfl
              have hr2 : g.refuses lastHashKey nb.hash = none := by
                unfold txnSetUnder at hset2
                cases hg : g.refuses lastHashKey nb.hash with
                | some e => rw [hg] at hset2; cases hset2
                | none => rfl
              rcases h with h | h | h | ⟨t, nb2, record2, h1, h2, h3, h4⟩
              · rw [hdb] at h; cases h
              · exact h hvc
              · exact h hs.1
              · rw [hdb] at h1
                cases h1
                rw [hnb] at h2
                cases h2
                rw [hs.2] at h3
                cases h3
                rcases h4 with h4 | h4
                · exact h4 hr1
                · exact h4 hr2

/-- C14: if the transaction of `AddBlock` fails at any step, the ledger after
`AddBlock` is the ledger before it: the store has no new record and the tip key
is not changed, also when the first write was done and the second one was
refused. The steps are those of the source, each with its failure: the read of
the tip key, the copy of the tip value, the encoding of the new block and the
two writes; each of these failures makes the transaction fail. Without
failures of the library calls the ledger afterwards is the one of `AddBlock`. -/
theorem C14_add_block_atomic (f : Faults) (sha : Sha256) (now : Int) (chain : BlockChain)
    (data : Bytes) (hfail : (addBlockTxnUnder f sha now chain.db data).isOk = false) :
    AddBlockUnder f sha now chain data = chain ∧
    (∀ k, (AddBlockUnder f sha now chain data).db k = chain.db k) ∧
    (∀ (g : Faults) (db : DB),
      (db lastHashKey = none ∨ g.valueCopy ≠ none ∨ g.serialize ≠ none ∨
        ∃ t nb record, db lastHashKey = some t ∧ NewBlock sha now data t difficulty = some nb ∧
          Serialize nb = .ok record ∧
          (g.refuses nb.hash record ≠ none ∨ g.refuses lastHashKey nb.hash ≠ none)) →
      (addBlockTxnUnder g sha now db data).isOk = false) ∧
    (∀ c : BlockChain, AddBlockUnder noFaults sha now c data = AddBlock sha now c data) := by
  have h : AddBlockUnder f sha now chain data = chain := by
    cases hr : addBlockTxnUnder f sha now chain.db data with
    | error e => simp only [AddBlockUnder, dbUpdate, hr]
    | ok db2 => rw [hr] at hfail; cases hfail
  refine ⟨h, fun k => by rw [h], fun g db hg => addBlockTxnUnder_fails g sha now db data hg, ?_⟩
  intro c
  cases hc : addBlockTxn sha now c.db data <;>
    simp only [AddBlockUnder, AddBlock, dbUpdate, addBlockTxnUnder_noFaults, hc]

set_option maxRecDepth 100000 in
/-- C14, an instance: a store whose tip key is bound to `[1, 2, 3]` and that
refuses the write to the tip key. The first write of the transaction, the record
of the new block, is accepted; the second one is refused; the transaction
fails and the ledger stays as it was. -/
theorem C14_add_block_atomic_witness :
    (∃ nb, NewBlock demoSha 1700 (ascii "A") [1, 2, 3] difficulty = some nb ∧
      (match Serialize nb with
        | .ok record =>
          (match txnSetUnder tipRefused
              (fun k => if k = lastHashKey then some [1, 2, 3] else none) nb.hash record with
            | .ok db1 =>
              decide (db1 nb.hash = some record) &&
                !(txnSetUnder tipRefused db1 lastHashKey nb.hash).isOk
            | .error _ => false)
        | .error _ => false) = true) ∧
    (addBlockTxnUnder tipRefused demoSha 1700
      (⟨[], fun k => if k = lastHashKey then some [1, 2, 3] else none⟩ : BlockChain).db
      (ascii "A")).isOk = false ∧
    AddBlockUnder tipRefused demoSha 1700
        ⟨[], fun k => if k = lastHashKey then some [1, 2, 3] else none⟩ (ascii "A")
      = ⟨[], fun k => if k = lastHashKey then some [1, 2, 3] else none⟩ :=
  ⟨⟨sealedNew demoSha 1700 (ascii "A") [1, 2, 3] difficulty, by decide, by decide⟩,
    by decide,
    (C14_add_block_atomic tipRefused demoSha 1700
      ⟨[], fun k => if k = lastHashKey then some [1, 2, 3] else none⟩ (ascii "A")
      (by decide)).1⟩

/-! ## Claims on opening the ledger -/

/-- C15, the code at the failing input: the result of `NewBlockChain` does not
depend on whether the manifest file existed before the call, because the test
runs after `badger.Open` has created it. On a fresh path (no manifest, empty
store) whose open succeeds, the recovery branch runs, its read of the tip key
fails, and `NewBlockChain` returns an error and no ledger; the store stays
empty. A failure to open the store is returned as an error with no ledger. -/
theorem C15_fresh_store_takes_recovery_path :
    (∀ (sha : Sha256) (now : Int) (db : DB),
      (NewBlockChain sha now none ⟨false, db⟩).2 = (NewBlockChain sha now none ⟨true, db⟩).2 ∧
      (NewBlockChain sha now none ⟨false, db⟩).2
        = (match continueBlockChain db with
            | (_, _, some e) => .error ("NewBlockChain: \n" ++ e)
            | (db2, lastHash, none) => .ok { lastHash := lastHash, db := db2 })) ∧
    (∀ (sha : Sha256) (now : Int),
      (NewBlockChain sha now none ⟨false, emptyDB⟩).2
        = .error "NewBlockChain: \ncontinueBlockChain: get last hash\nKey not found" ∧
      (NewBlockChain sha now none ⟨false, emptyDB⟩).1.db = emptyDB) ∧
    (∀ (sha : Sha256) (now : Int) (e : String) (disk : Disk),
      NewBlockChain sha now (some e) disk
        = (disk, .error ("NewBlockChain: open db\n" ++ e))) := by
  refine ⟨?_, ?_, ?_⟩
  · intro sha now db
    constructor
    · rfl
    · simp only [NewBlockChain, badgerOpen, Bool.not_true, Bool.false_eq_true, ↓reduceIte]
      split <;> rename_i h <;> simp [h]
  · intro sha now
    exact ⟨rfl, rfl⟩
  · intro sha now e disk
    rfl

/-! ## Further claims on sealing, validation and the hash input -/

/-- C16: for every difficulty from `0` to `256`, `NewBlock` returns a block
whatever the search finds: `runProofOfWork` has no halt. If no nonce `n` with
`0 ≤ n < math.MaxInt64` gives a digest below `2 ^ (256 - difficulty)`, the
returned block has the nonce `math.MaxInt64`, its hash is the digest taken with
the nonce `math.MaxInt64 - 1`, and that hash is not below the target: the loop
ended without a `break` and the hash and the nonce were saved all the same. -/
theorem C16_search_never_halts (sha : Sha256) (now : Int) (root prev : Bytes) (d : Int)
    (hd : 0 ≤ d ∧ d ≤ 256) :
    ∃ b : Block, NewBlock sha now root prev d = some b ∧
      b.merkleRoot = root ∧ b.prevHash = prev ∧ b.difficulty = d ∧ b.timestamp = now ∧
      ((∀ n : Nat, n < maxInt64 →
          ¬ setBytes (sha.sum256 (prev ++ root ++ toHex n ++ toHex d ++ toHex now))
            < 2 ^ (256 - d.toNat)) →
        b.nonce = 9223372036854775807 ∧
        b.hash = sha.sum256 (prev ++ root ++ toHex 9223372036854775806 ++ toHex d ++ toHex now) ∧
        ¬ setBytes b.hash < 2 ^ (256 - d.toNat)) := by
  have hf : lshFits (shiftAmount d) = true :=
    lshFits_of_le _ (shiftAmount_small d hd.1 hd.2)
  refine ⟨_, NewBlock_of_fits sha now root prev d hf, rfl, rfl, rfl, rfl, ?_⟩
  intro hnone
  rw [← threshold_of_small d hd.1 hd.2] at hnone ⊢
  have h := sealedNew_exhausted sha now root prev d hnone
  refine ⟨h.1, h.2, ?_⟩
  rw [h.2]
  exact hnone (maxInt64 - 1) (by decide)

/-- C16, an instance: at difficulty `12` with the digest function `demoSha`
`NewBlock` returns a block. -/
theorem C16_search_never_halts_witness :
    ((0 : Int) ≤ 12 ∧ (12 : Int) ≤ 256) ∧
    ∃ b : Block, NewBlock demoSha 1700 (ascii "E") [7] 12 = some b ∧
      b.merkleRoot = ascii "E" ∧ b.prevHash = [7] ∧ b.difficulty = 12 ∧ b.timestamp = 1700 ∧
      ((∀ n : Nat, n < maxInt64 →
          ¬ setBytes (demoSha.sum256 ([7] ++ ascii "E" ++ toHex n ++ toHex 12 ++ toHex 1700))
            < 2 ^ (256 - (12 : Int).toNat)) →
        b.nonce = 9223372036854775807 ∧
        b.hash = demoSha.sum256
          ([7] ++ ascii "E" ++ toHex 9223372036854775806 ++ toHex 12 ++ toHex 1700) ∧
        ¬ setBytes b.hash < 2 ^ (256 - (12 : Int).toNat)) :=
  ⟨by decide, C16_search_never_halts demoSha 1700 (ascii "E") [7] 12 (by decide)⟩

/-- C17: `Validate` returns only its answer and decides on the digest it
recomputes from `prevHash`, `merkleRoot`, `nonce`, `difficulty` and `timestamp`:
two blocks that differ only in the stored `hash` get the same result, the panic
of the shift included. -/
theorem C17_validate_ignores_stored_hash (sha : Sha256) (b : Block) (h : Bytes) :
    Validate sha { b with hash := h } = Validate sha b ∧
    Validate sha b
      = (target b.difficulty).map (fun tgt =>
          decide (setBytes (sha.sum256 (b.prevHash ++ b.merkleRoot ++ toHex b.nonce
            ++ toHex b.difficulty ++ toHex b.timestamp)) < tgt)) := by
  refine ⟨rfl, ?_⟩
  unfold Validate
  cases target b.difficulty <;> rfl

theorem bigEndian_length (k v : Nat) : (bigEndian k v).length = k := by
  induction k generalizing v with
  | zero => rfl
  | succ k ih => simp [bigEndian, ih]

theorem setBytes_bigEndian (k v : Nat) : setBytes (bigEndian k v) = v % 256 ^ k := by
  induction k generalizing v with
  | zero => simp [bigEndian, setBytes, Nat.mod_one]
  | succ k ih =>
    simp only [bigEndian]
    rw [setBytes_append, ih, List.length_singleton, pow_one, setBytes_cons,
      toNat_ofNat_lt _ (Nat.mod_lt _ (by norm_num))]
    simp only [List.length_nil, pow_zero, mul_one, setBytes, List.foldl_nil, add_zero]
    rw [pow_succ, mul_comm (256 ^ k) 256, Nat.mod_mul]
    ring

theorem toHex_length (n : Int) : (toHex n).length = 8 := bigEndian_length 8 _

theorem setBytes_toHex (n : Int) :
    setBytes (toHex n) = (n % 18446744073709551616).toNat := by
  unfold toHex
  rw [setBytes_bigEndian]
  have h : (256 : Nat) ^ 8 = 18446744073709551616 := by norm_num
  rw [h]
  omega

/-- C18: for every `int64` `n`, `toHex(n)` is exactly 8 bytes which, read as an
unsigned big-endian integer, equal `n mod 2 ^ 64` (the two's-complement
encoding), so `toHex` is injective on `int64` values; the function is total (the
error branch of `binary.Write` is never taken); and `getBytes(nonce)` is
`prevHash ++ merkleRoot ++ toHex(nonce) ++ toHex(difficulty) ++ toHex(timestamp)`,
of length `len(prevHash) + len(merkleRoot) + 24`. -/
theorem C18_toHex_getBytes (block : Block) (nonce n : Int) :
    (toHex n).length = 8 ∧
    (setBytes (toHex n) : Int) = n % 2 ^ 64 ∧
    (∀ m : Int, isInt64 m → isInt64 n → toHex m = toHex n → m = n) ∧
    getBytes block nonce
      = block.prevHash ++ block.merkleRoot ++ toHex nonce ++ toHex block.difficulty
          ++ toHex block.timestamp ∧
    (getBytes block nonce).length = block.prevHash.length + block.merkleRoot.length + 24 := by
  refine ⟨toHex_length n, ?_, ?_, rfl, ?_⟩
  · rw [setBytes_toHex]
    norm_num
    omega
  · intro m hm hn heq
    have h := congrArg setBytes heq
    rw [setBytes_toHex, setBytes_toHex] at h
    unfold isInt64 minInt64 maxInt64 at hm hn
    omega
  · simp only [getBytes, List.length_append, toHex_length]

/-- C19: the hash input does not frame `prevHash` and `merkleRoot`: two blocks with
the same concatenation `prevHash ++ merkleRoot` and the same nonce, difficulty
and timestamp have the same `getBytes`, hence the same recomputed digest and the
same result of `Validate`; and such blocks with different `prevHash` exist
(the first payload byte moved to the end of `prevHash`). -/
theorem C19_unframed_concatenation :
    (∀ (sha : Sha256) (b1 b2 : Block),
      b1.prevHash ++ b1.merkleRoot = b2.prevHash ++ b2.merkleRoot →
      b1.nonce = b2.nonce → b1.difficulty = b2.difficulty → b1.timestamp = b2.timestamp →
      (∀ n, getBytes b1 n = getBytes b2 n) ∧
      sha.sum256 (getBytes b1 b1.nonce) = sha.sum256 (getBytes b2 b2.nonce) ∧
      Validate sha b1 = Validate sha b2) ∧
    (∃ b1 b2 : Block,
      b1.prevHash ++ b1.merkleRoot = b2.prevHash ++ b2.merkleRoot ∧
      b1.nonce = b2.nonce ∧ b1.difficulty = b2.difficulty ∧ b1.timestamp = b2.timestamp ∧
      b1.prevHash ≠ b2.prevHash ∧ b1.prevHash = [7] ∧ b1.merkleRoot = [8, 9] ∧
      b2.prevHash = [7, 8] ∧ b2.merkleRoot = [9]) := by
  constructor
  · intro sha b1 b2 hcat hn hd ht
    have hg : ∀ n, getBytes b1 n = getBytes b2 n := by
      intro n
      simp only [getBytes, hcat, hd, ht]
    refine ⟨hg, ?_, ?_⟩
    · rw [hg, hn]
    · unfold Validate
      rw [hg, hn, hd]
  · exact ⟨⟨[], [8, 9], [7], 3, 12, 5⟩, ⟨[], [9], [7, 8], 3, 12, 5⟩,
      by decide, rfl, rfl, rfl, by decide, rfl, rfl, rfl, rfl⟩

/-! ## The store invariant -/

theorem storeInvariant_bootstrap (sha : Sha256) (now : Int) (hnow : isInt64 now) :
    storeInvariant (bootstrapLedger sha now).db := by
  obtain ⟨record, hser, hdec⟩ := Deserialize_sealedNew sha now genesisData [] hnow
  have hlen := sealedNew_hash_length sha now genesisData [] difficulty
  have hne := hash_ne_lastHashKey _ hlen
  have hdbeq : (bootstrapLedger sha now).db
      = fun k =>
          if k = lastHashKey then some (sealedNew sha now genesisData [] difficulty).hash
          else if k = (sealedNew sha now genesisData [] difficulty).hash then some record
          else emptyDB k := by
    have h : Except.ok record = (Except.ok _ : Except String Bytes) := hser.symm.trans rfl
    rw [Except.ok.inj h]
    simp only [bootstrapLedger, createBlockChain_ok]
    rfl
  rw [hdbeq]
  refine ⟨_, by simp only [↓reduceIte], hlen, by simp only [hne, ↓reduceIte]; rfl, ?_⟩
  intro k v hk hv
  simp only [hk, ↓reduceIte] at hv
  split at hv
  · next hkg =>
    simp only [Option.some.injEq] at hv
    subst hv
    rw [hdec]
    exact ⟨hkg ▸ hlen, rfl, hkg.symm, Or.inl rfl⟩
  · simp [emptyDB] at hv

theorem storeInvariant_AddBlock (sha : Sha256) (now : Int) (hnow : isInt64 now)
    (chain : BlockChain) (data : Bytes) (hinv : storeInvariant chain.db) :
    storeInvariant (AddBlock sha now chain data).db := by
  obtain ⟨tip, htip, htlen, htkey, hrest⟩ := hinv
  obtain ⟨record, hser, hdec⟩ := Deserialize_sealedNew sha now data tip hnow
  have hlen := sealedNew_hash_length sha now data tip difficulty
  have hne := hash_ne_lastHashKey _ hlen
  have hok := addBlockTxn_ok sha now chain.db data tip htip
  have hdbeq : (AddBlock sha now chain data).db
      = fun k =>
          if k = lastHashKey then some (sealedNew sha now data tip difficulty).hash
          else if k = (sealedNew sha now data tip difficulty).hash then some record
          else chain.db k := by
    have h : Except.ok record = (Except.ok _ : Except String Bytes) := hser.symm.trans rfl
    rw [Except.ok.inj h, AddBlock_db sha now chain data _ hok]
  have hmono : ∀ p, (chain.db p).isSome = true →
      ((fun k =>
          if k = lastHashKey then some (sealedNew sha now data tip difficulty).hash
          else if k = (sealedNew sha now data tip difficulty).hash then some record
          else chain.db k) p).isSome = true := by
    intro p hp
    simp only []
    split
    · rfl
    · split
      · rfl
      · exact hp
  rw [hdbeq]
  refine ⟨_, by simp only [↓reduceIte], hlen, by simp only [hne, ↓reduceIte]; rfl, ?_⟩
  intro k v hk hv
  simp only [hk, ↓reduceIte] at hv
  split at hv
  · next hkg =>
    simp only [Option.some.injEq] at hv
    subst hv
    rw [hdec]
    refine ⟨hkg ▸ hlen, rfl, hkg.symm, Or.inr ?_⟩
    exact hmono tip htkey
  · obtain ⟨h1, h2, h3, h4⟩ := hrest k v hk hv
    refine ⟨h1, h2, h3, ?_⟩
    rcases h4 with h4 | h4
    · exact Or.inl h4
    · exact Or.inr (hmono _ h4)

theorem storeInvariant_appendAll (sha : Sha256) (appends : List (Int × Bytes)) :
    ∀ chain : BlockChain, storeInvariant chain.db → (∀ a ∈ appends, isInt64 a.1) →
      storeInvariant (appendAll sha chain appends).db := by
  induction appends with
  | nil => intro chain h _; exact h
  | cons a rest ih =>
    intro chain h hnows
    exact ih (AddBlock sha a.1 chain a.2)
      (storeInvariant_AddBlock sha a.1 (hnows a (List.mem_cons_self _ _)) chain a.2 h)
      (fun x hx => hnows x (List.mem_cons_of_mem _ hx))

/-- C20: in every store reached from the empty store by the bootstrap transaction
and any sequence of `AddBlock` calls (with `int64` clock readings), the tip key
is bound to a 32-byte key of the store; every key other than the tip key is 32
bytes long, so it is not the 9-byte tip key, and is bound to a record that
decodes to a block whose `hash` is that key; and the `prevHash` of every stored
block is empty or a key of the store. -/
theorem C20_store_invariant (sha : Sha256) (now0 : Int) (appends : List (Int × Bytes))
    (hnow0 : isInt64 now0) (hnows : ∀ a ∈ appends, isInt64 a.1) :
    lastHashKey.length = 9 ∧
    ∃ tip,
      (appendAll sha (bootstrapLedger sha now0) appends).db lastHashKey = some tip ∧
      tip.length = 32 ∧
      ((appendAll sha (bootstrapLedger sha now0) appends).db tip).isSome = true ∧
      ∀ k v, k ≠ lastHashKey →
        (appendAll sha (bootstrapLedger sha now0) appends).db k = some v →
        k.length = 32 ∧ (Deserialize v).2 = none ∧ (Deserialize v).1.hash = k ∧
        ((Deserialize v).1.prevHash = [] ∨
          ((appendAll sha (bootstrapLedger sha now0) appends).db
            (Deserialize v).1.prevHash).isSome = true) :=
  ⟨lastHashKey_length,
    storeInvariant_appendAll sha appends (bootstrapLedger sha now0)
      (storeInvariant_bootstrap sha now0 hnow0) hnows⟩

/-- C20, an instance: the bootstrap and two appends with `demoSha`. -/
theorem C20_store_invariant_witness :
    isInt64 1 ∧ (∀ a ∈ [((2 : Int), ascii "A"), (3, ascii "B")], isInt64 a.1) ∧
    lastHashKey.length = 9 ∧
    ∃ tip,
      (appendAll demoSha (bootstrapLedger demoSha 1) [(2, ascii "A"), (3, ascii "B")]).db lastHashKey = some tip ∧
      tip.length = 32 ∧
      ((appendAll demoSha (bootstrapLedger demoSha 1) [(2, ascii "A"), (3, ascii "B")]).db tip).isSome = true ∧
      ∀ k v, k ≠ lastHashKey →
        (appendAll demoSha (bootstrapLedger demoSha 1) [(2, ascii "A"), (3, ascii "B")]).db k = some v →
        k.length = 32 ∧ (Deserialize v).2 = none ∧ (Deserialize v).1.hash = k ∧
        ((Deserialize v).1.prevHash = [] ∨
          ((appendAll demoSha (bootstrapLedger demoSha 1) [(2, ascii "A"), (3, ascii "B")]).db
            (Deserialize v).1.prevHash).isSome = true) :=
  ⟨by decide, by decide,
    C20_store_invariant demoSha 1 [(2, ascii "A"), (3, ascii "B")] (by decide) (by decide)⟩

/-! ## Iterating a ledger -/

theorem sealedChain_snoc (sha : Sha256) (now0 : Int) (init : List (Int × Bytes))
    (a : Int × Bytes) :
    sealedChain sha now0 (init ++ [a])
      = match sealedChain sha now0 init with
        | [] => []
        | b :: rest => sealedNew sha a.1 a.2 b.hash difficulty :: b :: rest := by
  simp only [sealedChain, List.foldl_append, List.foldl_cons, List.foldl_nil]

/-- The iterator over a linked list of stored blocks: seeded at the hash of the
newest block it returns the blocks in order and then the nil block. -/
theorem nextResults_linked (db : DB) :
    ∀ (rest : List Block) (b : Block),
      (∀ x ∈ b :: rest, x.hash.length = 32 ∧
        ∃ r, db x.hash = some r ∧ Deserialize r = (x, none)) →
      linked (b :: rest) →
      nextResults db ((b :: rest).length + 1) (NewIterator b.hash)
        = (b :: rest).map some ++ [none] := by
  intro rest
  induction rest with
  | nil =>
    intro b hall hl
    obtain ⟨hlen, r, hdb, hdec⟩ := hall b (List.mem_cons_self _ _)
    exact nextResults_last db b r (hash_ne_nil _ hlen) hdb hdec hl
  | cons b1 rest ih =>
    intro b hall hl
    obtain ⟨hlen, r, hdb, hdec⟩ := hall b (List.mem_cons_self _ _)
    have hrec := ih b1 (fun x hx => hall x (List.mem_cons_of_mem _ hx)) hl.2
    have hN := Next_of_record db b.hash r b (hash_ne_nil _ hlen) hdb hdec
    have hprev : b.prevHash = b1.hash := hl.1
    simp only [NewIterator] at hrec ⊢
    rw [show (b :: b1 :: rest).length + 1 = ((b1 :: rest).length + 1) + 1 from rfl]
    simp only [nextResults, hN, hprev, List.map_cons, List.cons_append] at hrec ⊢
    rw [hrec]

/-- The store of a ledger holds the record of every sealed block, the tip key
holds the hash of the newest one, and the sealed blocks are linked, when the
clock readings are `int64` values and the sealed hashes are pairwise distinct. -/
theorem ledger_chain (sha : Sha256) (now0 : Int) (hnow0 : isInt64 now0)
    (appends : List (Int × Bytes)) :
    (∀ a ∈ appends, isInt64 a.1) →
    ((sealedChain sha now0 appends).map Block.hash).Nodup →
    ∃ b rest, sealedChain sha now0 appends = b :: rest ∧
      (appendAll sha (bootstrapLedger sha now0) appends).db lastHashKey = some b.hash ∧
      (∀ x ∈ b :: rest, x.hash.length = 32 ∧
        ∃ r, (appendAll sha (bootstrapLedger sha now0) appends).db x.hash = some r ∧
          Deserialize r = (x, none)) ∧
      linked (b :: rest) := by
  induction appends using List.reverseRecOn with
  | nil =>
    intro _ _
    obtain ⟨record, hser, hdec⟩ := Deserialize_sealedNew sha now0 genesisData [] hnow0
    have hlen := sealedNew_hash_length sha now0 genesisData [] difficulty
    have hne := hash_ne_lastHashKey _ hlen
    have hrec : Except.ok record = (Except.ok _ : Except String Bytes) := hser.symm.trans rfl
    refine ⟨sealedGenesis sha now0 genesisData difficulty, [], rfl,
      (bootstrapLedger_tip sha now0).1, ?_, rfl⟩
    intro x hx
    simp only [List.mem_singleton] at hx
    subst hx
    refine ⟨hlen, record, ?_, hdec⟩
    rw [Except.ok.inj hrec]
    simp only [appendAll, List.foldl_nil, bootstrapLedger, createBlockChain_ok]
    have hne2 : (sealedGenesis sha now0 genesisData difficulty).hash ≠ lastHashKey := hne
    simp only [hne2, ↓reduceIte]
    rfl
  | append_singleton init a ih =>
    intro hnows hnodup
    rw [sealedChain_snoc] at hnodup ⊢
    have hinit : ∀ x ∈ init, isInt64 x.1 :=
      fun x hx => hnows x (List.mem_append_left _ hx)
    have ha : isInt64 a.1 := hnows a (List.mem_append_right _ (List.mem_singleton.mpr rfl))
    cases hs : sealedChain sha now0 init with
    | nil =>
      rw [hs] at hnodup
      have h := ih hinit (by rw [hs]; exact List.nodup_nil)
      obtain ⟨b, rest, hb, _⟩ := h
      rw [hs] at hb
      cases hb
    | cons b rest =>
      rw [hs] at hnodup ih
      simp only [List.map_cons, List.nodup_cons] at hnodup
      obtain ⟨b', rest', hb, htip, hall, hl⟩ := ih hinit (by
        simp only [List.map_cons, List.nodup_cons]; exact hnodup.2)
      simp only [List.cons.injEq] at hb
      obtain ⟨hb1, hb2⟩ := hb
      subst hb1
      subst hb2
      obtain ⟨record, hser, hdec⟩ := Deserialize_sealedNew sha a.1 a.2 b.hash ha
      have hlen := sealedNew_hash_length sha a.1 a.2 b.hash difficulty
      have hne := hash_ne_lastHashKey _ hlen
      have hok := addBlockTxn_ok sha a.1 (appendAll sha (bootstrapLedger sha now0) init).db
        a.2 b.hash htip
      have hrec : Except.ok record = (Except.ok _ : Except String Bytes) :=
        hser.symm.trans rfl
      have hdbeq : (appendAll sha (bootstrapLedger sha now0) (init ++ [a])).db
          = fun k =>
              if k = lastHashKey then some (sealedNew sha a.1 a.2 b.hash difficulty).hash
              else if k = (sealedNew sha a.1 a.2 b.hash difficulty).hash then some record
              else (appendAll sha (bootstrapLedger sha now0) init).db k := by
        rw [Except.ok.inj hrec, appendAll_snoc, AddBlock_db sha a.1 _ a.2 _ hok]
      refine ⟨_, _, rfl, ?_, ?_, ⟨rfl, hl⟩⟩
      · rw [hdbeq]
        simp only [↓reduceIte]
      · intro x hx
        rw [hdbeq]
        rcases List.mem_cons.mp hx with hx | hx
        · subst hx
          refine ⟨hlen, record, ?_, hdec⟩
          simp only [hne, ↓reduceIte]
        · obtain ⟨hxlen, r, hr, hrd⟩ := hall x hx
          have hx1 : x.hash ≠ lastHashKey := hash_ne_lastHashKey _ hxlen
          have hx2 : x.hash ≠ (sealedNew sha a.1 a.2 b.hash difficulty).hash := by
            intro e
            apply hnodup.1
            rw [← e]
            rcases List.mem_cons.mp hx with h | h
            · subst h
              exact List.mem_cons_self _ _
            · exact List.mem_cons_of_mem _ (List.mem_map.mpr ⟨x, h, rfl⟩)
          refine ⟨hxlen, r, ?_, hrd⟩
          simp only [hx1, hx2, ↓reduceIte]
          exact hr

theorem sealedChain_shape (sha : Sha256) (now0 : Int) (appends : List (Int × Bytes)) :
    (sealedChain sha now0 appends).length = appends.length + 1 ∧
    (sealedChain sha now0 appends).map Block.merkleRoot
      = (appends.map Prod.snd).reverse ++ [genesisData] ∧
    (sealedChain sha now0 appends).getLast?
      = some (sealedGenesis sha now0 genesisData difficulty) := by
  induction appends using List.reverseRecOn with
  | nil => exact ⟨rfl, rfl, rfl⟩
  | append_singleton init a ih =>
    rw [sealedChain_snoc]
    cases hs : sealedChain sha now0 init with
    | nil =>
      rw [hs] at ih
      simp at ih
    | cons b rest =>
      rw [hs] at ih
      obtain ⟨h1, h2, h3⟩ := ih
      refine ⟨?_, ?_, ?_⟩
      · simp only [List.length_cons, List.length_append, List.length_nil] at h1 ⊢
        omega
      · simp only [List.map_cons, List.map_append, List.map_nil, List.reverse_append,
          List.reverse_cons, List.reverse_nil, List.nil_append, List.cons_append] at h2 ⊢
        rw [h2]
        rfl
      · simp only [List.getLast?_cons_cons] at h3 ⊢
        exact h3

/-- The iteration of a ledger, in terms of the blocks that the constructors
return at the constant `difficulty`: for every store made by the bootstrap transaction and
`n` `AddBlock` calls (with `int64` clock readings) whose sealed blocks have
pairwise distinct hashes, an iterator seeded at the value of the store's tip key
returns exactly `n + 1` blocks and then the nil block: the `n` appended blocks,
newest first, then the genesis block; the `prevHash` of each returned block is
the hash of the block returned next, and that of the last one is empty. -/
theorem iteration_order (sha : Sha256) (now0 : Int) (appends : List (Int × Bytes))
    (hnow0 : isInt64 now0) (hnows : ∀ a ∈ appends, isInt64 a.1)
    (hdistinct : ((sealedChain sha now0 appends).map Block.hash).Nodup) :
    ∃ tip,
      (appendAll sha (bootstrapLedger sha now0) appends).db lastHashKey = some tip ∧
      nextResults (appendAll sha (bootstrapLedger sha now0) appends).db
          (appends.length + 2) (NewIterator tip)
        = (sealedChain sha now0 appends).map some ++ [none] ∧
      (sealedChain sha now0 appends).length = appends.length + 1 ∧
      (sealedChain sha now0 appends).map Block.merkleRoot
        = (appends.map Prod.snd).reverse ++ [genesisData] ∧
      (sealedChain sha now0 appends).getLast?
        = some (sealedGenesis sha now0 genesisData difficulty) ∧
      linked (sealedChain sha now0 appends) := by
  obtain ⟨b, rest, hs, htip, hall, hl⟩ := ledger_chain sha now0 hnow0 appends hnows hdistinct
  obtain ⟨h1, h2, h3⟩ := sealedChain_shape sha now0 appends
  refine ⟨b.hash, htip, ?_, h1, h2, h3, ?_⟩
  · have hlen : appends.length + 2 = (b :: rest).length + 1 := by
      rw [← hs, h1]
    rw [hlen, hs]
    exact nextResults_linked _ rest b hall hl
  · rw [hs]
    exact hl

/-- C13: for every `n ≥ 0` and every store made by the bootstrap transaction and
`n` `AddBlock` calls (with `int64` clock readings) whose sealed blocks have
pairwise distinct hashes, an iterator seeded at the value of the store's tip key
returns exactly `n + 1` blocks and then the nil block: the `n` appended blocks,
newest first, then the genesis block; the `prevHash` of each returned block is
the hash of the block returned next, and that of the last one is empty. -/
theorem C13_iteration_order (sha : Sha256) (now0 : Int) (appends : List (Int × Bytes))
    (hnow0 : isInt64 now0) (hnows : ∀ a ∈ appends, isInt64 a.1)
    (hdistinct : ((sealedBlocks sha now0 appends).map Block.hash).Nodup) :
    ∃ tip,
      (appendAll sha (bootstrapLedger sha now0) appends).db lastHashKey = some tip ∧
      nextResults (appendAll sha (bootstrapLedger sha now0) appends).db
          (appends.length + 2) (NewIterator tip)
        = (sealedBlocks sha now0 appends).map some ++ [none] ∧
      (sealedBlocks sha now0 appends).length = appends.length + 1 ∧
      (sealedBlocks sha now0 appends).map Block.merkleRoot
        = (appends.map Prod.snd).reverse ++ [genesisData] ∧
      (sealedBlocks sha now0 appends).getLast?
        = GenesisBlock sha now0 genesisData difficulty ∧
      linked (sealedBlocks sha now0 appends) := by
  rw [sealedBlocks_eq] at hdistinct ⊢
  rw [GenesisBlock_difficulty]
  exact iteration_order sha now0 appends hnow0 hnows hdistinct

set_option maxRecDepth 100000 in
/-- C13, an instance: the bootstrap and the appends of "A" and "B" with
`demoSha` and the clock readings `1`, `2`, `3`. -/
theorem C13_iteration_order_witness :
    isInt64 1 ∧ (∀ a ∈ [((2 : Int), ascii "A"), (3, ascii "B")], isInt64 a.1) ∧
    ((sealedBlocks demoSha 1 [(2, ascii "A"), (3, ascii "B")]).map Block.hash).Nodup ∧
    ∃ tip,
      (appendAll demoSha (bootstrapLedger demoSha 1) [(2, ascii "A"), (3, ascii "B")]).db
          lastHashKey = some tip ∧
      nextResults
          (appendAll demoSha (bootstrapLedger demoSha 1) [(2, ascii "A"), (3, ascii "B")]).db
          ([((2 : Int), ascii "A"), (3, ascii "B")].length + 2) (NewIterator tip)
        = (sealedBlocks demoSha 1 [(2, ascii "A"), (3, ascii "B")]).map some ++ [none] ∧
      (sealedBlocks demoSha 1 [(2, ascii "A"), (3, ascii "B")]).length
        = [((2 : Int), ascii "A"), (3, ascii "B")].length + 1 ∧
      (sealedBlocks demoSha 1 [(2, ascii "A"), (3, ascii "B")]).map Block.merkleRoot
        = ([((2 : Int), ascii "A"), (3, ascii "B")].map Prod.snd).reverse ++ [genesisData] ∧
      (sealedBlocks demoSha 1 [(2, ascii "A"), (3, ascii "B")]).getLast?
        = GenesisBlock demoSha 1 genesisData difficulty ∧
      linked (sealedBlocks demoSha 1 [(2, ascii "A"), (3, ascii "B")]) :=
  ⟨by decide, by decide, by decide,
    C13_iteration_order demoSha 1 [(2, ascii "A"), (3, ascii "B")] (by decide) (by decide)
      (by decide)⟩

end BC
